import Mathlib

/-!
Shallow embedding of the on-disk vault engine of `src/application/vault.c`
(noodles-password-vault).

The vault file is modelled as a list of tokens: ordinary bytes are `Tok.b v`;
the two cryptographic outputs whose byte values the engine never inspects
except through equality of recomputed values — `crypto_secretbox_easy`
ciphertext-plus-tag blocks and `crypto_generichash` keyed-hash outputs — are
modelled as symbolic tokens `Tok.box` / `Tok.mac` occupying their on-disk
byte count (`pt.length + MAC_SIZE` resp. `HASH_SIZE` bytes).  This models the
cryptographic primitives by their contracts (spec section 4.2): the keyed hash
is collision-free, sealing authenticates key, nonce and payload.  A bit flip
inside such a block is modelled by the `corrupt` constructors: a flipped
ciphertext never opens, a flipped hash never equals an honestly recomputed
hash.  All other bytes (header fields, the slot table, record headers) are
literal bytes, and all offset arithmetic follows the C source.
-/

namespace Vault

/-! ### Constants (vault.h and the file-format constants of spec section 6) -/

def VE_SUCCESS : Nat := 0
def VE_MEMERR : Nat := 1
def VE_PARAMERR : Nat := 2
def VE_IOERR : Nat := 3
def VE_CRYPTOERR : Nat := 4
def VE_VOPEN : Nat := 5
def VE_VCLOSE : Nat := 6
def VE_SYSCALL : Nat := 7
def VE_EXIST : Nat := 8
def VE_ACCESS : Nat := 9
def VE_KEYEXIST : Nat := 10
def VE_FILE : Nat := 11
def VE_NOSPACE : Nat := 12
def VE_WRONGPASS : Nat := 13

def SALT_SIZE : Nat := 16
def MASTER_KEY_SIZE : Nat := 32
def MAC_SIZE : Nat := 16
def NONCE_SIZE : Nat := 24
def HASH_SIZE : Nat := 32
def LOC_SIZE : Nat := 16
def HEADER_SIZE : Nat := 108
def ENTRY_HEADER_SIZE : Nat := 9

/-- `STATE_ACTIVE = (1 << 16) | 1` from vault.c. -/
def STATE_ACTIVE : Nat := 65537
def STATE_UNUSED : Nat := 0
def STATE_DELETED : Nat := 1

/-- Modelled from the spec: `BOX_KEY_SIZE` is declared in a header that is not
under src/ (only its uses are); the spec gives no numeric value (keys are
bounded by `BOX_KEY_SIZE - 1`).  The value only gates parameter checks. -/
def BOX_KEY_SIZE : Nat := 128

/-- Modelled from the spec: `DATA_SIZE` (the value bound) is declared outside
src/; the spec gives no numeric value. -/
def DATA_SIZE : Nat := 1024

/-- Modelled from the spec: `INITIAL_SIZE` is declared outside src/; scenario
S3 of the spec works with `INITIAL_SIZE = 4`. -/
def INITIAL_SIZE : Nat := 4

/-- Modelled from the spec: the `VERSION` byte's value is declared outside
src/ and never inspected by the engine. -/
def VERSION : Nat := 1

/-! ### Ideal crypto primitives (spec section 4.2: contracts, not code) -/

/-- `crypto_pwhash` (Argon2id): an injective function of password and salt,
modelled as an injective encoding. -/
def pwhash (input salt : List Nat) : List Nat :=
  (input.length :: input) ++ salt

/-- Output of `crypto_secretbox_easy`: `pt.length` ciphertext bytes plus a
16-byte tag.  `corrupt` stands for a sealed block with some bit flipped:
authentication always fails on it. -/
inductive Box where
  | seal (key : List Nat) (nonce : List Nat) (pt : List Nat)
  | corrupt (orig : Box) (pos bit : Nat)
deriving DecidableEq, Repr

/-- Number of plaintext bytes underlying a (possibly corrupted) sealed block;
the block occupies `ptLen + MAC_SIZE` bytes on disk. -/
def Box.ptLen : Box → Nat
  | .seal _ _ pt => pt.length
  | .corrupt o _ _ => o.ptLen

/-- `crypto_secretbox_open_easy`: succeeds exactly on an uncorrupted block
sealed with the same key and nonce. -/
def secretbox_open (x : Box) (nonce key : List Nat) : Option (List Nat) :=
  match x with
  | .seal k n pt => if k = key ∧ n = nonce then some pt else none
  | .corrupt _ _ _ => none

mutual
/-- One token of the on-disk file: a literal byte, a secretbox block
(`ptLen + 16` bytes), or a 32-byte keyed-hash output. -/
inductive Tok where
  | b (v : Nat)
  | box (x : Box)
  | mac (m : FMac)
deriving Repr

/-- Output of `crypto_generichash` keyed with a 32-byte key over a byte
region of the file (`.mk key msg`); `corrupt` is such an output with a bit
flipped, which no honest recomputation ever equals. -/
inductive FMac where
  | mk (key : List Nat) (msg : List Tok)
  | corrupt (orig : FMac) (pos bit : Nat)
deriving Repr
end

mutual
def Tok.beq : Tok → Tok → Bool
  | .b v, .b w => v == w
  | .box x, .box y => x == y
  | .mac m, .mac n => FMac.beq m n
  | _, _ => false
def FMac.beq : FMac → FMac → Bool
  | .mk k m, .mk k' m' => k == k' && toksBeq m m'
  | .corrupt o p c, .corrupt o' p' c' => FMac.beq o o' && p == p' && c == c'
  | _, _ => false
def toksBeq : List Tok → List Tok → Bool
  | [], [] => true
  | t :: ts, u :: us => Tok.beq t u && toksBeq ts us
  | _, _ => false
end

mutual
def Tok.eq_of_beq : ∀ a b : Tok, Tok.beq a b = true → a = b
  | .b v, .b w, h => by
    simp only [Tok.beq, beq_iff_eq] at h; exact h ▸ rfl
  | .box x, .box y, h => by
    simp only [Tok.beq, beq_iff_eq] at h; exact h ▸ rfl
  | .mac m, .mac n, h => by
    have := FMac.eq_of_beq m n h
    exact this ▸ rfl
  | .b _, .box _, h => by simp [Tok.beq] at h
  | .b _, .mac _, h => by simp [Tok.beq] at h
  | .box _, .b _, h => by simp [Tok.beq] at h
  | .box _, .mac _, h => by simp [Tok.beq] at h
  | .mac _, .b _, h => by simp [Tok.beq] at h
  | .mac _, .box _, h => by simp [Tok.beq] at h
def FMac.eq_of_beq : ∀ a b : FMac, FMac.beq a b = true → a = b
  | .mk k m, .mk k' m', h => by
    simp only [FMac.beq, Bool.and_eq_true, beq_iff_eq] at h
    have hm := toks_eq_of_beq m m' h.2
    rw [h.1, hm]
  | .corrupt o p c, .corrupt o' p' c', h => by
    simp only [FMac.beq, Bool.and_eq_true, beq_iff_eq] at h
    have ho := FMac.eq_of_beq o o' h.1.1
    rw [ho, h.1.2, h.2]
  | .mk _ _, .corrupt _ _ _, h => by simp [FMac.beq] at h
  | .corrupt _ _ _, .mk _ _, h => by simp [FMac.beq] at h
def toks_eq_of_beq : ∀ a b : List Tok, toksBeq a b = true → a = b
  | [], [], _ => rfl
  | t :: ts, u :: us, h => by
    simp only [toksBeq, Bool.and_eq_true] at h
    have h1 := Tok.eq_of_beq t u h.1
    have h2 := toks_eq_of_beq ts us h.2
    rw [h1, h2]
  | [], _ :: _, h => by simp [toksBeq] at h
  | _ :: _, [], h => by simp [toksBeq] at h
end

mutual
def Tok.beq_refl : ∀ a : Tok, Tok.beq a a = true
  | .b v => by simp [Tok.beq]
  | .box x => by simp [Tok.beq]
  | .mac m => FMac.beq_refl m
def FMac.beq_refl : ∀ a : FMac, FMac.beq a a = true
  | .mk k m => by
    simp [FMac.beq, toks_beq_refl m]
  | .corrupt o p c => by
    simp [FMac.beq, FMac.beq_refl o]
def toks_beq_refl : ∀ a : List Tok, toksBeq a a = true
  | [] => rfl
  | t :: ts => by
    simp only [toksBeq, Bool.and_eq_true]
    exact ⟨Tok.beq_refl t, toks_beq_refl ts⟩
end

instance : DecidableEq Tok := fun a b =>
  decidable_of_iff (Tok.beq a b = true)
    ⟨Tok.eq_of_beq a b, fun h => h ▸ Tok.beq_refl a⟩

instance : DecidableEq FMac := fun a b =>
  decidable_of_iff (FMac.beq a b = true)
    ⟨FMac.eq_of_beq a b, fun h => h ▸ FMac.beq_refl a⟩

/-- On-disk byte count of a token. -/
def Tok.size : Tok → Nat
  | .b _ => 1
  | .box x => x.ptLen + MAC_SIZE
  | .mac _ => HASH_SIZE

/-- Byte length of a token list. -/
def toksLen (ts : List Tok) : Nat := (ts.map Tok.size).sum

/-! ### Byte-offset slicing of a token file (lseek / read / write) -/

/-- Split a token list at byte offset `n`.  Tokens that lie entirely inside
the first `n` bytes go left; a token that would straddle the boundary stays
right (every split performed by the C source is token-aligned). -/
def splitToks (n : Nat) : List Tok → List Tok × List Tok
  | [] => ([], [])
  | t :: ts =>
    if n = 0 then ([], t :: ts)
    else if t.size ≤ n then
      let p := splitToks (n - t.size) ts
      (t :: p.1, p.2)
    else ([], t :: ts)

def takeBytes (n : Nat) (ts : List Tok) : List Tok := (splitToks n ts).1

def dropBytes (n : Nat) (ts : List Tok) : List Tok := (splitToks n ts).2

/-- `lseek(pos)` then `write(new)`: overwrite `toksLen new` bytes starting at
byte `pos`, extending the file if the write runs past the end. -/
def writeAt (f : List Tok) (pos : Nat) (new : List Tok) : List Tok :=
  takeBytes pos f ++ new ++ dropBytes (toksLen new) (dropBytes pos f)

/-- `ftruncate` to `n` bytes (zero-padding if the file is shorter, as POSIX
extends with zero bytes). -/
def truncBytes (f : List Tok) (n : Nat) : List Tok :=
  takeBytes n f ++ List.replicate (n - toksLen (takeBytes n f)) (Tok.b 0)

/-- The literal bytes of a token list, defined only when it contains no
symbolic crypto block. -/
def byteList : List Tok → Option (List Nat)
  | [] => some []
  | .b v :: ts => (byteList ts).map (v :: ·)
  | _ => none

/-- `read(n)` at byte `pos`: the `n` literal bytes there, if that region
consists of literal bytes. -/
def readBytesAt (f : List Tok) (pos n : Nat) : Option (List Nat) :=
  match byteList (takeBytes n (dropBytes pos f)) with
  | some bs => if bs.length = n then some bs else none
  | none => none

/-- The secretbox block starting exactly at byte `pos`, if any. -/
def readBoxAt (f : List Tok) (pos : Nat) : Option Box :=
  match dropBytes pos f with
  | .box x :: _ => some x
  | _ => none

/-- The keyed-hash output starting exactly at byte `pos`, if any. -/
def readMacAt (f : List Tok) (pos : Nat) : Option FMac :=
  match dropBytes pos f with
  | .mac m :: _ => some m
  | _ => none

/-! ### Little-endian integers -/

/-- Little-endian `uint32_t` bytes of `n % 2^32`. -/
def u32Bytes (n : Nat) : List Nat :=
  [n % 256, n / 256 % 256, n / 65536 % 256, n / 16777216 % 256]

/-- Little-endian `uint64_t` bytes of `n % 2^64`. -/
def u64Bytes (n : Nat) : List Nat :=
  [n % 256, n / 256 % 256, n / 65536 % 256, n / 16777216 % 256,
   n / 4294967296 % 256, n / 1099511627776 % 256,
   n / 281474976710656 % 256, n / 72057594037927936 % 256]

/-- Value of a little-endian byte list. -/
def leVal (bs : List Nat) : Nat := bs.foldr (fun b acc => b + 256 * acc) 0

/-- `uint32_t` subtraction, `(a - b) mod 2^32` for `a, b < 2^32`. -/
def u32sub (a b : Nat) : Nat := (a + (4294967296 - b % 4294967296)) % 4294967296

/-! ### Bit flips (tamper experiments of spec section 8) -/

/-- Flip bit `bit` of the byte at offset `pos` inside one token.  For a
literal byte this is XOR; for a symbolic crypto block it yields the
corresponding `corrupt` value (an ideal cipher or hash output with one bit
flipped authenticates or matches nothing). -/
def flipTok (t : Tok) (pos bit : Nat) : Tok :=
  match t with
  | .b v => .b (v ^^^ 2 ^ bit)
  | .box x => .box (.corrupt x pos bit)
  | .mac m => .mac (.corrupt m pos bit)

/-- Flip bit `bit` of the byte at offset `pos` of the file. -/
def flipAt (ts : List Tok) (pos bit : Nat) : List Tok :=
  match ts with
  | [] => []
  | t :: r => if pos < t.size then flipTok t pos bit :: r
              else t :: flipAt r (pos - t.size) bit

/-- Flip bit `bit` of byte `i` of a plain byte list. -/
def flipBytes : List Nat → Nat → Nat → List Nat
  | [], _, _ => []
  | x :: xs, 0, bit => (x ^^^ 2 ^ bit) :: xs
  | x :: xs, i + 1, bit => x :: flipBytes xs i bit

/-! ### The key index (vault_map.h)

Modelled from the spec: the hash map `vault_map.h` / `vault_map.c` is code of
this repository that is not under src/ (vault.c only calls it).  Spec
section 4.4: a map from key strings to `(slot_offset, mtime, type)` with
unique keys; modelled as an association list with insert-replace. -/

/-- `struct key_info` of vault.c. -/
structure KeyInfoEntry where
  inode_loc : Nat
  m_time : Nat
  ktype : Nat
deriving DecidableEq, Repr

abbrev KeyMap := List (List Nat × KeyInfoEntry)

/-- Modelled from the spec: `get_info` of vault_map.h — lookup by key. -/
def get_info (m : KeyMap) (k : List Nat) : Option KeyInfoEntry :=
  (m.find? (fun p => p.1 = k)).map (·.2)

/-- Modelled from the spec: `add_entry` of vault_map.h — insert, keeping keys
unique. -/
def add_entry (m : KeyMap) (k : List Nat) (e : KeyInfoEntry) : KeyMap :=
  (k, e) :: m.filter (fun p => ¬ p.1 = k)

/-- Modelled from the spec: `delete_entry` of vault_map.h. -/
def delete_entry (m : KeyMap) (k : List Nat) : KeyMap :=
  m.filter (fun p => ¬ p.1 = k)

/-- Modelled from the spec: `num_keys` of vault_map.h — the number of
entries. -/
def num_keys (m : KeyMap) : Nat := m.length

/-! ### Session state (`struct vault_info`, `struct vault_box`) -/

/-- `struct vault_box`: the hot-key cache.  `key = []` models
`key[0] == 0` (no key cached); `value` holds the decrypted bytes. -/
structure VaultBox where
  key : List Nat
  btype : Nat
  val_len : Nat
  value : List Nat
deriving DecidableEq, Repr

def emptyVaultBox : VaultBox := ⟨[], 0, 0, []⟩

/-- `struct vault_info` (the file descriptor is replaced by the file
contents, carried in `VState`). -/
structure VaultInfo where
  is_open : Bool
  derived_key : List Nat
  decrypted_master : List Nat
  current_box : VaultBox
  key_info : KeyMap
deriving DecidableEq, Repr

/-- A session together with the on-disk vault file it owns. -/
structure VState where
  info : VaultInfo
  file : List Tok
deriving DecidableEq, Repr

/-! ### Records and slots -/

def recSizeOf (klen vlen : Nat) : Nat :=
  ENTRY_HEADER_SIZE + klen + vlen + MAC_SIZE + NONCE_SIZE + HASH_SIZE

/-- The bytes `internal_append_key` assembles for one entry:
`MTIME | TYPE | KEY | E_VAL(ct+tag) | VAL_NONCE | entry hash`, the hash keyed
with the master over everything before it. -/
def recordToks (master : List Nat) (ty : Nat) (key value : List Nat)
    (m_time val_len : Nat) (nonce : List Nat) : List Tok :=
  let pre := (u64Bytes m_time).map Tok.b ++ [Tok.b ty] ++ key.map Tok.b
    ++ [Tok.box (Box.seal master nonce (value.take val_len))] ++ nonce.map Tok.b
  pre ++ [Tok.mac (FMac.mk master pre)]

/-- One 16-byte slot (`state | file_offset | key_len | val_len`). -/
def slotBytes4 (state off klen vlen : Nat) : List Nat :=
  u32Bytes state ++ u32Bytes off ++ u32Bytes klen ++ u32Bytes vlen

def slotsToBytes (ls : List (Nat × Nat × Nat × Nat)) : List Nat :=
  (ls.map (fun s => slotBytes4 s.1 s.2.1 s.2.2.1 s.2.2.2)).flatten

/-- The `L_SIZE` field at `HEADER_SIZE - 4`. -/
def readLocLen (f : List Tok) : Option Nat :=
  (readBytesAt f (HEADER_SIZE - 4) 4).map leVal

/-- Decode 16 slot bytes into the four `uint32_t` fields. -/
def parseSlotBytes (bs : List Nat) : Nat × Nat × Nat × Nat :=
  (leVal (bs.take 4), leVal ((bs.drop 4).take 4),
   leVal ((bs.drop 8).take 4), leVal (bs.drop 12))

/-- Read a 16-byte slot at an absolute file offset. -/
def readSlotAt (f : List Tok) (pos : Nat) : Option (Nat × Nat × Nat × Nat) :=
  match readBytesAt f pos LOC_SIZE with
  | some bs => some (parseSlotBytes bs)
  | none => none

def readSlot (f : List Tok) (i : Nat) : Option (Nat × Nat × Nat × Nat) :=
  readSlotAt f (HEADER_SIZE + i * LOC_SIZE)

def slotState (f : List Tok) (i : Nat) : Option Nat := (readSlot f i).map (·.1)

/-- Scan `n` slots starting at index `start` for the first one whose `state`
field is 0. -/
def scanFrom (f : List Tok) (start : Nat) : Nat → Option Nat
  | 0 => none
  | n + 1 => if slotState f start = some 0 then some start
             else scanFrom f (start + 1) n

/-- The slot scan of `internal_append_key`: the first index whose `state`
field is 0 (`if (loc_data[0]) continue;`). -/
def firstFree (f : List Tok) (L : Nat) : Option Nat := scanFrom f 0 L

/-- A record region parsed back from the file using the slot's sizes. -/
structure RawRec where
  mtimeBytes : List Nat
  ty : Nat
  keyBytes : List Nat
  vbox : Box
  nonceBytes : List Nat
  rmac : FMac
deriving DecidableEq, Repr

/-- The bytes covered by the per-record hash: everything before the final
32 hash bytes. -/
def recPrefixToks (r : RawRec) : List Tok :=
  r.mtimeBytes.map Tok.b ++ [Tok.b r.ty] ++ r.keyBytes.map Tok.b
    ++ [Tok.box r.vbox] ++ r.nonceBytes.map Tok.b

/-- Parse the record region at `pos` with the slot's `key_len`/`val_len`.
`none` when the region does not decompose as a record of those sizes (in the
C source such a misaligned read yields bytes whose entry hash cannot match;
callers treat `none` as that hash failure). -/
def readRecordAt (f : List Tok) (pos klen vlen : Nat) : Option RawRec :=
  match readBytesAt f pos 8, readBytesAt f (pos + 8) 1,
        readBytesAt f (pos + ENTRY_HEADER_SIZE) klen,
        readBoxAt f (pos + ENTRY_HEADER_SIZE + klen),
        readBytesAt f (pos + ENTRY_HEADER_SIZE + klen + vlen + MAC_SIZE) NONCE_SIZE,
        readMacAt f (pos + ENTRY_HEADER_SIZE + klen + vlen + MAC_SIZE + NONCE_SIZE) with
  | some mt, some tyb, some kb, some bx, some nb, some mc =>
    if bx.ptLen = vlen then some ⟨mt, tyb.getD 0 0, kb, bx, nb, mc⟩ else none
  | _, _, _, _, _, _ => none

/-! ### Operations of vault.c -/

/-- `internal_create_key_map` (vault.c 447-486): scan the slot table and for
each `STATE_ACTIVE` slot read `mtime`, `type` and the key from the record at
its offset.  The key is the C string read there (`key[key_len] = 0`), hence
truncated at the first zero byte.  When the model cannot give a literal byte
value for a stale offset it uses the zero defaults (such offsets arise only
from the compaction bug, where the C source reads the zero-filled slot
region). -/
def create_key_map (f : List Tok) : KeyMap :=
  match readLocLen f with
  | none => []
  | some L =>
    (List.range L).foldl (fun m i =>
      match readSlot f i with
      | some (st_, off, klen, _vlen) =>
        if st_ = STATE_ACTIVE then
          let inode_loc := HEADER_SIZE + i * LOC_SIZE
          let mt := match readBytesAt f off 8 with | some bs => leVal bs | none => 0
          let ty := match readBytesAt f (off + 8) 1 with | some bs => bs.getD 0 0 | none => 0
          let kb := match readBytesAt f (off + ENTRY_HEADER_SIZE) klen with
                    | some bs => bs | none => []
          add_entry m (kb.takeWhile (fun c => c ≠ 0)) ⟨inode_loc, mt, ty⟩
        else m
      | none => m) []

/-- `internal_append_key` (vault.c 244-334): find the first free slot, write
the sealed record over the trailing file hash, write the slot, recompute the
file hash over the whole file (`off_end = 0`) and append it, insert into the
key map. -/
def internal_append_key (st : VState) (ty : Nat) (key value : List Nat)
    (m_time val_len : Nat) (nonce : List Nat) : Nat × VState :=
  match readLocLen st.file with
  | none => (VE_IOERR, st)
  | some L =>
    match firstFree st.file L with
    | none => (VE_NOSPACE, st)
    | some i =>
      let file_loc := toksLen st.file - HASH_SIZE
      let key_len := key.length
      let inode_loc := HEADER_SIZE + i * LOC_SIZE
      let rec0 := recordToks st.info.decrypted_master ty key value m_time val_len nonce
      let f1 := writeAt st.file file_loc rec0
      let f2 := writeAt f1 inode_loc ((slotBytes4 STATE_ACTIVE file_loc key_len val_len).map Tok.b)
      let f3 := f2 ++ [Tok.mac (FMac.mk st.info.decrypted_master f2)]
      (VE_SUCCESS,
        ⟨{ st.info with
             key_info := add_entry st.info.key_info key ⟨inode_loc, m_time, ty⟩ }, f3⟩)

/-- Accumulator of the compaction loop (vault.c 551-578). -/
structure CondAcc where
  box_data : List Tok
  loc : List (Nat × Nat × Nat × Nat)
  drl : Nat
  lri : Nat
  stop : Bool
deriving Repr

/-- `memmove` inside the in-memory heap copy. -/
def memmoveToks (buf : List Tok) (dst src len : Nat) : List Tok :=
  takeBytes dst buf ++ takeBytes len (dropBytes src buf) ++ dropBytes (dst + len) buf

/-- One iteration of the compaction loop.  Mirrors vault.c 551-578 exactly:
an `ACTIVE` slot already at its packed index is skipped without rebasing its
offset or counting its bytes; a moved `ACTIVE` slot is copied to
`data_replacement_loc` and rewritten (in place and at the packed index); the
first `UNUSED` slot stops the scan; a `DELETED` slot seeds
`data_replacement_loc` if it is still 0. -/
def condStep (old_data_offset new_data_offset : Nat) (acc : CondAcc) (i : Nat) : CondAcc :=
  if acc.stop then acc
  else
    let cur := acc.loc.getD i (0, 0, 0, 0)
    let cur_box_len := cur.2.2.1 + cur.2.2.2 + ENTRY_HEADER_SIZE + MAC_SIZE
                       + NONCE_SIZE + HASH_SIZE
    let current_loc := u32sub cur.2.1 old_data_offset
    if cur.1 = STATE_ACTIVE then
      if acc.lri = i then { acc with lri := acc.lri + 1 }
      else
        let bd := memmoveToks acc.box_data acc.drl current_loc cur_box_len
        let cur' := (cur.1, new_data_offset + acc.drl, cur.2.2.1, cur.2.2.2)
        { acc with
            box_data := bd,
            loc := (acc.loc.set i cur').set acc.lri cur',
            drl := acc.drl + cur_box_len,
            lri := acc.lri + 1 }
    else if cur.1 = STATE_UNUSED then { acc with stop := true }
    else if acc.drl = 0 then { acc with drl := current_loc } else acc

/-- `internal_condense_file` (vault.c 504-614): read slot table and heap,
compact live records, double the slot table, truncate, rehash, rebuild the
key map. -/
def internal_condense_file (st : VState) : Nat × VState :=
  if ¬ st.info.is_open then (VE_VCLOSE, st)
  else
    let f := st.file
    let current_file_size := toksLen f - HASH_SIZE
    match readLocLen f with
    | none => (VE_IOERR, st)
    | some loc_size =>
      let old_data_offset := loc_size * LOC_SIZE + HEADER_SIZE
      let new_data_offset := loc_size * LOC_SIZE + old_data_offset
      let loc0 := (List.range loc_size).map (fun i =>
        match readSlot f i with | some s => s | none => (0, 0, 0, 0))
      let box_len := u32sub current_file_size old_data_offset
      let box0 := takeBytes box_len (dropBytes old_data_offset f)
      let acc := (List.range loc_size).foldl
        (condStep old_data_offset new_data_offset) ⟨box0, loc0, 0, 0, false⟩
      let new_data_size := acc.drl
      let valid := acc.lri
      let new_file_size := new_data_offset + new_data_size
      let new_loc_size := loc_size * 2
      let f1 := writeAt f new_data_offset (takeBytes new_data_size acc.box_data)
      let num_zeros := (loc_size * 2 - valid) * LOC_SIZE
      let f2 := writeAt f1 (HEADER_SIZE - 4)
        ((u32Bytes new_loc_size ++ slotsToBytes (acc.loc.take valid)
          ++ List.replicate num_zeros 0).map Tok.b)
      let f5 := truncBytes f2 new_file_size
      let f6 := f5 ++ [Tok.mac (FMac.mk st.info.decrypted_master f5)]
      (VE_SUCCESS, ⟨{ st.info with key_info := create_key_map f6 }, f6⟩)

/-- `add_key` (vault.c 1664-1690). -/
def add_key (st : VState) (ty : Nat) (key value : List Nat) (m_time len : Nat)
    (nonce1 nonce2 : List Nat) : Nat × VState :=
  if len > DATA_SIZE ∨ key.length > BOX_KEY_SIZE - 1 then (VE_PARAMERR, st)
  else if ¬ st.info.is_open then (VE_VCLOSE, st)
  else if (get_info st.info.key_info key).isSome then (VE_KEYEXIST, st)
  else
    let r := internal_append_key st ty key value m_time len nonce1
    if r.1 = VE_NOSPACE then
      let c := internal_condense_file r.2
      internal_append_key c.2 ty key value m_time len nonce2
    else r

/-- `open_key` (vault.c 1785-1859). -/
def open_key (st : VState) (key : List Nat) : Nat × VState :=
  if key.length > BOX_KEY_SIZE - 1 then (VE_PARAMERR, st)
  else if ¬ st.info.is_open then (VE_VCLOSE, st)
  else
    match get_info st.info.key_info key with
    | none => (VE_KEYEXIST, st)
    | some e =>
      if st.info.current_box.key ≠ [] ∧ st.info.current_box.key = key then
        (VE_SUCCESS, st)
      else
        match readSlotAt st.file e.inode_loc with
        | none => (VE_IOERR, st)
        | some (_s, file_loc, key_len, val_len) =>
          match readRecordAt st.file file_loc key_len val_len with
          | none => (VE_CRYPTOERR, st)
          | some r =>
            if r.rmac ≠ FMac.mk st.info.decrypted_master (recPrefixToks r) then
              (VE_CRYPTOERR, st)
            else
              match secretbox_open r.vbox r.nonceBytes st.info.decrypted_master with
              | none => (VE_CRYPTOERR, st)
              | some pt =>
                (VE_SUCCESS,
                  ⟨{ st.info with current_box := ⟨key, r.ty, val_len, pt⟩ }, st.file⟩)

/-- `delete_key` (vault.c 1874-1930): mark the slot `STATE_DELETED`, zero the
ciphertext-plus-tag region, then hash the whole file with `off_end = 0`
(including the old trailing hash) and append the result at the end. -/
def delete_key (st : VState) (key : List Nat) : Nat × VState :=
  if key.length > BOX_KEY_SIZE - 1 then (VE_PARAMERR, st)
  else if ¬ st.info.is_open then (VE_VCLOSE, st)
  else
    match get_info st.info.key_info key with
    | none => (VE_KEYEXIST, st)
    | some e =>
      match readSlotAt st.file e.inode_loc with
      | none => (VE_IOERR, st)
      | some (_s, file_loc, key_len, val_len) =>
        let m1 := delete_entry st.info.key_info key
        let f1 := writeAt st.file e.inode_loc ((u32Bytes STATE_DELETED).map Tok.b)
        let f2 := writeAt f1 (file_loc + ENTRY_HEADER_SIZE + key_len)
          ((List.replicate (val_len + MAC_SIZE) 0).map Tok.b)
        let f3 := f2 ++ [Tok.mac (FMac.mk st.info.decrypted_master f2)]
        (VE_SUCCESS, ⟨{ st.info with key_info := m1 }, f3⟩)

/-- `update_key` (vault.c 1945-1958): delete then add. -/
def update_key (st : VState) (ty : Nat) (key value : List Nat) (m_time len : Nat)
    (nonce1 nonce2 : List Nat) : Nat × VState :=
  if value.length > DATA_SIZE ∨ key.length > BOX_KEY_SIZE - 1 then (VE_PARAMERR, st)
  else
    let d := delete_key st key
    if d.1 ≠ VE_SUCCESS then d
    else add_key d.2 ty key value m_time len nonce1 nonce2

/-- `place_open_value` (vault.c 1970-1984): copy `val_len` bytes of the hot
box out, returning `(code, state, bytes, len, type)`. -/
def place_open_value (st : VState) : Nat × VState × List Nat × Nat × Nat :=
  if ¬ st.info.is_open then (VE_VCLOSE, st, [], 0, 0)
  else (VE_SUCCESS, st,
    st.info.current_box.value.take st.info.current_box.val_len,
    st.info.current_box.val_len, st.info.current_box.btype)

/-- `num_vault_keys` (vault.c 1728-1737): a `uint32_t` that is the error code
on failure and the key count on success. -/
def num_vault_keys (st : VState) : Nat :=
  if ¬ st.info.is_open then VE_VCLOSE else num_keys st.info.key_info

/-- `last_modified_time` (vault.c 1746-1768): a `uint64_t` that is the error
code on failure and the stored mtime on success. -/
def last_modified_time (st : VState) (key : List Nat) : Nat :=
  if key.length > BOX_KEY_SIZE - 1 then VE_PARAMERR
  else if ¬ st.info.is_open then VE_VCLOSE
  else
    match get_info st.info.key_info key with
    | none => VE_KEYEXIST
    | some e => e.m_time

/-- `close_vault` (vault.c 1122-1149): zero `derived_key`,
`decrypted_master` and `current_box`, drop the key map.  The zeroed cache has
`key[0] = 0`, modelled as the empty key. -/
def close_vault (st : VState) : Nat × VState :=
  if ¬ st.info.is_open then (VE_VCLOSE, st)
  else (VE_SUCCESS,
    ⟨⟨false, List.replicate MASTER_KEY_SIZE 0, List.replicate MASTER_KEY_SIZE 0,
      emptyVaultBox, []⟩, st.file⟩)

/-- The initial file written by `create_vault` (vault.c 825-844):
`version | 7 zero bytes | salt | sealed master | master nonce | 8 zero bytes |
INITIAL_SIZE | zeroed slot table | file hash`. -/
def create_vault_file (pw master salt master_nonce : List Nat) : List Tok :=
  let content := (Tok.b VERSION :: (List.replicate 7 0).map Tok.b)
    ++ salt.map Tok.b
    ++ [Tok.box (Box.seal (pwhash pw salt) master_nonce master)]
    ++ master_nonce.map Tok.b
    ++ (List.replicate 8 0).map Tok.b
    ++ (u32Bytes INITIAL_SIZE).map Tok.b
    ++ (List.replicate (INITIAL_SIZE * LOC_SIZE) 0).map Tok.b
  content ++ [Tok.mac (FMac.mk master content)]

/-- `create_vault` (vault.c 745-856), file and session construction on the
success path; `master`, `salt` and `master_nonce` stand for the random bytes
drawn inside the call. -/
def create_vault (pw master salt master_nonce : List Nat) : Nat × VState :=
  (VE_SUCCESS,
    ⟨⟨true, pwhash pw salt, master, emptyVaultBox, []⟩,
     create_vault_file pw master salt master_nonce⟩)

/-- `open_vault` (vault.c 1005-1104): derive the key from the stored salt,
open the master envelope (`WRONGPASS` on failure), then compare the
recomputed file hash over `file[0 .. len-32]` against the trailing 32 bytes
(`FILE` on mismatch), then build the key map. -/
def open_vault (pw : List Nat) (f : List Tok) : Nat × Option VaultInfo :=
  match readBytesAt f 8 SALT_SIZE, readBoxAt f 24,
        readBytesAt f (HEADER_SIZE - NONCE_SIZE - 12) NONCE_SIZE with
  | some salt, some mbox, some mnonce =>
    let dk := pwhash pw salt
    match secretbox_open mbox mnonce dk with
    | none => (VE_WRONGPASS, none)
    | some master =>
      let computed := FMac.mk master (takeBytes (toksLen f - HASH_SIZE) f)
      match readMacAt f (toksLen f - HASH_SIZE) with
      | some stored =>
        if computed ≠ stored then (VE_FILE, none)
        else (VE_SUCCESS, some ⟨true, dk, master, emptyVaultBox, create_key_map f⟩)
      | none => (VE_FILE, none)
  | _, _, _ => (VE_IOERR, none)

/-- Modelled from the spec: `MAX_PASS_SIZE` is declared outside src/; the
spec gives no numeric value. -/
def MAX_PASS_SIZE : Nat := 128

/-- `change_password` (vault.c 1558-1645): re-derive and check the old
password against the stored envelope and the in-memory master, then write a
fresh salt, sealed master and nonce at bytes 8..95 and replace the trailing
file hash (`off_end = HASH_SIZE`).  `salt2` and `nonce2` stand for the random
bytes drawn inside the call.  The hot-key cache is not touched. -/
def change_password (st : VState) (old_password new_password salt2 nonce2 : List Nat) :
    Nat × VState :=
  if old_password.length > MAX_PASS_SIZE ∨ new_password.length > MAX_PASS_SIZE then
    (VE_PARAMERR, st)
  else if ¬ st.info.is_open then (VE_VCLOSE, st)
  else
    match readBytesAt st.file 8 SALT_SIZE, readBoxAt st.file 24,
          readBytesAt st.file (HEADER_SIZE - NONCE_SIZE - 12) NONCE_SIZE with
    | some salt, some mbox, some mnonce =>
      match secretbox_open mbox mnonce (pwhash old_password salt) with
      | none => (VE_WRONGPASS, st)
      | some master =>
        if master ≠ st.info.decrypted_master then (VE_WRONGPASS, st)
        else
          let dk2 := pwhash new_password salt2
          let f1 := writeAt st.file 8
            (salt2.map Tok.b ++ [Tok.box (Box.seal dk2 nonce2 st.info.decrypted_master)]
              ++ nonce2.map Tok.b)
          let f2 := writeAt f1 (toksLen f1 - HASH_SIZE)
            [Tok.mac (FMac.mk st.info.decrypted_master (takeBytes (toksLen f1 - HASH_SIZE) f1))]
          (VE_SUCCESS, ⟨{ st.info with derived_key := dk2 }, f2⟩)
    | _, _, _ => (VE_IOERR, st)

/-- `set_last_server_time` (vault.c 2167-2187): write the 8-byte field at
`HEADER_SIZE - 12` and replace the trailing file hash. -/
def set_last_server_time (st : VState) (timestamp : Nat) : Nat × VState :=
  if ¬ st.info.is_open then (VE_VCLOSE, st)
  else
    let f1 := writeAt st.file (HEADER_SIZE - 12) ((u64Bytes timestamp).map Tok.b)
    let f2 := writeAt f1 (toksLen f1 - HASH_SIZE)
      [Tok.mac (FMac.mk st.info.decrypted_master (takeBytes (toksLen f1 - HASH_SIZE) f1))]
    (VE_SUCCESS, ⟨st.info, f2⟩)

/-- `get_header` (vault.c 2122-2132): copy the first `HEADER_SIZE - 4` bytes
of the file. -/
def get_header (st : VState) : Nat × List Tok :=
  if ¬ st.info.is_open then (VE_VCLOSE, [])
  else (VE_SUCCESS, takeBytes (HEADER_SIZE - 4) st.file)

/-- `internal_append_encrypted` (vault.c 356-433): like
`internal_append_key`, but appends a server-supplied raw entry after
overwriting its mtime and recomputing its entry hash. -/
def internal_append_encrypted (st : VState) (ty : Nat) (key : List Nat)
    (entry : List Tok) (len m_time : Nat) : Nat × VState :=
  match readLocLen st.file with
  | none => (VE_IOERR, st)
  | some L =>
    match firstFree st.file L with
    | none => (VE_NOSPACE, st)
    | some i =>
      let file_loc := toksLen st.file - HASH_SIZE
      let key_len := key.length
      let val_len := len - ENTRY_HEADER_SIZE - MAC_SIZE - NONCE_SIZE - HASH_SIZE - key_len
      let inode_loc := HEADER_SIZE + i * LOC_SIZE
      let e1 := writeAt entry 0 ((u64Bytes m_time).map Tok.b)
      let e2 := writeAt e1 (len - HASH_SIZE)
        [Tok.mac (FMac.mk st.info.decrypted_master (takeBytes (len - HASH_SIZE) e1))]
      let f1 := writeAt st.file file_loc e2
      let f2 := writeAt f1 inode_loc ((slotBytes4 STATE_ACTIVE file_loc key_len val_len).map Tok.b)
      let f3 := f2 ++ [Tok.mac (FMac.mk st.info.decrypted_master f2)]
      (VE_SUCCESS,
        ⟨{ st.info with
             key_info := add_entry st.info.key_info key ⟨inode_loc, m_time, ty⟩ }, f3⟩)

/-- `add_encrypted_value` (vault.c 2002-2046): verify the blob's entry hash
under the local master, then append (compacting and retrying once when the
append does not succeed). -/
def add_encrypted_value (st : VState) (key : List Nat) (entry : List Tok)
    (len ty m_time : Nat) : Nat × VState :=
  if key.length > BOX_KEY_SIZE - 1 then (VE_PARAMERR, st)
  else if ¬ st.info.is_open then (VE_VCLOSE, st)
  else if (get_info st.info.key_info key).isSome then (VE_KEYEXIST, st)
  else
    let ok : Bool := match readMacAt entry (len - HASH_SIZE) with
      | some m => decide
          (m = FMac.mk st.info.decrypted_master (takeBytes (len - HASH_SIZE) entry))
      | none => false
    if ¬ ok then (VE_FILE, st)
    else
      let r := internal_append_encrypted st ty key entry len m_time
      if r.1 ≠ VE_SUCCESS then
        let c := internal_condense_file r.2
        internal_append_encrypted c.2 ty key entry len m_time
      else r

/-! ### Memory-protection control flow of `create_vault` (for the
session-relock discipline) -/

/-- Protection state of the guarded `vault_info` memory. -/
inductive MemProt where
  | noaccess
  | readwrite
deriving DecidableEq, Repr

/-- Environment outcomes that steer `create_vault`'s error paths. -/
structure CreateEnv where
  params_ok : Bool
  vault_already_open : Bool
  open_fails_eexist : Bool
  open_fails_eacces : Bool
  open_fails_other : Bool
  flock_fails : Bool
deriving DecidableEq, Repr

/-- Control-flow skeleton of `create_vault` (vault.c 745-856) tracking the
return code and the final protection state of the guarded session memory.
The memory starts `noaccess`; `sodium_mprotect_readwrite` is called after the
parameter checks; the `VOPEN` path and all later crypto/IO error paths call
`sodium_mprotect_noaccess` before returning, but the `open(2)` failure paths
(lines 781-789) and the `flock` failure path (lines 791-795) return without
relocking. -/
def create_vault_mem (env : CreateEnv) : Nat × MemProt :=
  if ¬ env.params_ok then (VE_PARAMERR, MemProt.noaccess)
  else if env.vault_already_open then (VE_VOPEN, MemProt.noaccess)
  else if env.open_fails_eexist then (VE_EXIST, MemProt.readwrite)
  else if env.open_fails_eacces then (VE_ACCESS, MemProt.readwrite)
  else if env.open_fails_other then (VE_SYSCALL, MemProt.readwrite)
  else if env.flock_fails then (VE_SYSCALL, MemProt.readwrite)
  else (VE_SUCCESS, MemProt.noaccess)

/-! ### Structured view of a well-formed vault file -/

/-- A vault file decomposed along the byte-exact layout of spec section 6:
`version+reserved (8) | salt (16) | sealed master (48) | master nonce (24) |
last_server_time (8) | slot_count (4) | slot table (16 N) | record heap |
file hash (32)`. -/
structure FileView where
  vbytes : List Nat
  salt : List Nat
  mbox : Box
  mnonce : List Nat
  stime : List Nat
  locLen : Nat
  slotBytes : List Nat
  heap : List Tok
  fmac : FMac
deriving DecidableEq, Repr

/-- The 104 header bytes before `slot_count`. -/
def FileView.hdrToks (v : FileView) : List Tok :=
  v.vbytes.map Tok.b ++ v.salt.map Tok.b ++ [Tok.box v.mbox]
    ++ v.mnonce.map Tok.b ++ v.stime.map Tok.b

/-- Everything before the trailing file hash. -/
def FileView.content (v : FileView) : List Tok :=
  v.hdrToks ++ (u32Bytes v.locLen).map Tok.b ++ v.slotBytes.map Tok.b ++ v.heap

/-- The whole file. -/
def FileView.toks (v : FileView) : List Tok :=
  v.content ++ [Tok.mac v.fmac]

/-- Field sizes of the fixed layout (all decidable, so that concrete views
can discharge them by computation). -/
def FileView.WF (v : FileView) : Prop :=
  v.vbytes.length = 8 ∧ v.salt.length = SALT_SIZE ∧ v.mbox.ptLen = MASTER_KEY_SIZE
    ∧ v.mnonce.length = NONCE_SIZE ∧ v.stime.length = 8
    ∧ v.slotBytes.length = LOC_SIZE * v.locLen ∧ v.locLen < 4294967296

instance (v : FileView) : Decidable v.WF := by
  unfold FileView.WF; infer_instance

/-- The 16 slot-table bytes of slot `i`. -/
def FileView.slotB (v : FileView) (i : Nat) : List Nat :=
  (v.slotBytes.drop (LOC_SIZE * i)).take LOC_SIZE

/-! ### A concrete scenario (the S1-S3 walk of spec section 8,
`INITIAL_SIZE = 4`) -/

def scPw : List Nat := [112, 119]
def scMaster : List Nat := List.replicate 32 7
def scSalt : List Nat := List.replicate 16 1
def scNonce0 : List Nat := List.replicate 24 2
def scSt0 : VState := (create_vault scPw scMaster scSalt scNonce0).2
def scN (i : Nat) : List Nat := List.replicate 24 (10 + i)
def scKey (i : Nat) : List Nat := [107, 48 + i]
def scVal (i : Nat) : List Nat := [118, 48 + i]
def scAdd (i : Nat) (s : VState) : VState :=
  (add_key s 1 (scKey i) (scVal i) (1000 + i) 2 (scN i) (scN (50 + i))).2
def scSt1 : VState := scAdd 0 scSt0
def scSt4 : VState := scAdd 3 (scAdd 2 (scAdd 1 scSt1))
def scR5 : Nat × VState := add_key scSt4 1 (scKey 4) (scVal 4) 1004 2 (scN 4) (scN 54)
def scStOpen : VState := (open_key scSt1 (scKey 0)).2
def scStDel : VState := (delete_key scStOpen (scKey 0)).2
def scReAdd : Nat × VState := add_key scStDel 1 (scKey 0) [99, 99] 3000 2 (scN 20) (scN 21)

/-! ### The file-size formulas of claim C5 -/

/-- The sum, over all `ACTIVE` and `DELETED` slots, of the record size
`ENTRY_HEADER_SIZE + key_len + val_len + MAC_SIZE + NONCE_SIZE + HASH_SIZE`
recorded in the slot table. -/
def sumRecSizes (f : List Tok) : Nat :=
  match readLocLen f with
  | none => 0
  | some L =>
    ((List.range L).map (fun i =>
      match readSlot f i with
      | some (s, _, klen, vlen) =>
        if s = STATE_ACTIVE ∨ s = STATE_DELETED then recSizeOf klen vlen else 0
      | none => 0)).sum

/-- The file size stated by the claim:
`64 + 4 + 16 * slot_count + sum of record sizes + 32`. -/
def claimed_file_size (f : List Tok) : Nat :=
  64 + 4 + 16 * ((readLocLen f).getD 0) + sumRecSizes f + 32

/-- The corrected formula with the real header size (104 bytes before
`slot_count`). -/
def amended_file_size (f : List Tok) : Nat :=
  104 + 4 + 16 * ((readLocLen f).getD 0) + sumRecSizes f + 32

/-- The trailing 32 bytes are the keyed hash, under `master`, of everything
before them (the file-MAC closure of claim C6). -/
def macClosed (master : List Nat) (f : List Tok) : Prop :=
  ∃ c, f = c ++ [Tok.mac (FMac.mk master c)]

/-! ### Concrete states for the in-band error-code claim (C10) -/

def c10closed : VState := ⟨⟨false, [], [], emptyVaultBox, []⟩, []⟩
def c10map6 : KeyMap :=
  [([1], ⟨108, 100, 1⟩), ([2], ⟨124, 101, 1⟩), ([3], ⟨140, 102, 1⟩),
   ([4], ⟨156, 103, 1⟩), ([5], ⟨172, 104, 1⟩), ([6], ⟨188, 105, 1⟩)]
def c10open6 : VState := ⟨⟨true, [], [], emptyVaultBox, c10map6⟩, []⟩
def c10mapT : KeyMap := [([5], ⟨108, 10, 1⟩)]
def c10openT : VState := ⟨⟨true, [], [], emptyVaultBox, c10mapT⟩, []⟩

/-! ### Concrete open vault for the round-trip witness (C3) -/

/-- A freshly created vault view: four empty slots, empty heap. -/
def c3v : FileView :=
  ⟨[1, 0, 0, 0, 0, 0, 0, 0], List.replicate 16 1,
   Box.seal (pwhash [112, 119] (List.replicate 16 1)) (List.replicate 24 2)
     (List.replicate 32 7),
   List.replicate 24 2, List.replicate 8 0, 4, List.replicate 64 0, [],
   FMac.mk (List.replicate 32 7) []⟩

/-- The matching open session: empty key map, idle hot-key cache. -/
def c3info : VaultInfo :=
  ⟨true, pwhash [112, 119] (List.replicate 16 1), List.replicate 32 7,
   emptyVaultBox, []⟩

/-! ### Concrete honest vault view for the tamper-detection witness (C2) -/

/-- The fields of a freshly created vault, before the trailing hash. -/
def c2vbase : FileView :=
  ⟨[1, 0, 0, 0, 0, 0, 0, 0], scSalt, Box.seal (pwhash scPw scSalt) scNonce0 scMaster,
   scNonce0, List.replicate 8 0, 4, List.replicate 64 0, [],
   FMac.corrupt (FMac.mk [] []) 0 0⟩

/-- The honest view: trailing hash recomputed over the content under the
master key. -/
def c2v : FileView := { c2vbase with fmac := FMac.mk scMaster c2vbase.content }

/-! ### Concrete vault with one ACTIVE record for the delete witness (C7) -/

/-- One-record vault view: slot 0 `ACTIVE` at offset 172, k0 ↦ v0. -/
def c7v : FileView :=
  ⟨[1, 0, 0, 0, 0, 0, 0, 0], scSalt,
   Box.seal (pwhash scPw scSalt) scNonce0 scMaster, scNonce0, List.replicate 8 0, 4,
   slotBytes4 STATE_ACTIVE 172 2 2 ++ List.replicate 48 0,
   recordToks scMaster 1 (scKey 0) (scVal 0) 1000 2 (scN 0),
   FMac.mk scMaster []⟩

/-- The matching open session with k0 in the key map. -/
def c7info : VaultInfo :=
  ⟨true, pwhash scPw scSalt, scMaster, emptyVaultBox,
   [(scKey 0, ⟨108, 1000, 1⟩)]⟩

/-! ### Auxiliary definitions used by the lemmas -/

/-- Corruption depth of a sealed block (a corrupted block is never equal to
what it corrupts). -/
def Box.depth : Box → Nat
  | .seal _ _ _ => 0
  | .corrupt o _ _ => o.depth + 1

/-- Corruption depth of a hash output. -/
def FMac.depth : FMac → Nat
  | .mk _ _ => 0
  | .corrupt o _ _ => o.depth + 1

/-- The file view produced by a successful `internal_append_key` on view `v`:
slot `i` rewritten to `ACTIVE` with the record's offset and sizes, the record
appended to the heap, and the trailing hash recomputed over the new
content. -/
def vAfterAppend (v : FileView) (master : List Nat) (i : Nat) (rec0 : List Tok)
    (klen vlen : Nat) : FileView :=
  let fl := 108 + 16 * v.locLen + toksLen v.heap
  let sb := v.slotBytes.take (LOC_SIZE * i)
    ++ slotBytes4 STATE_ACTIVE fl klen vlen
    ++ v.slotBytes.drop (LOC_SIZE * i + LOC_SIZE)
  let c := FileView.content { v with slotBytes := sb, heap := v.heap ++ rec0 }
  { v with slotBytes := sb, heap := v.heap ++ rec0, fmac := FMac.mk master c }

/-- The session info after an append inserted `key` into the key map. -/
def infoAfterAdd (info : VaultInfo) (key : List Nat) (inode m_time ty : Nat) :
    VaultInfo :=
  { info with key_info := add_entry info.key_info key ⟨inode, m_time, ty⟩ }

/-! ## Lemmas: byte-offset slicing -/

theorem Tok.size_pos (t : Tok) : 0 < t.size := by
  cases t with
  | b v => simp [Tok.size]
  | box x => simp [Tok.size, MAC_SIZE]
  | mac m => simp [Tok.size, HASH_SIZE]

theorem toksLen_cons (t : Tok) (ts : List Tok) :
    toksLen (t :: ts) = t.size + toksLen ts := by
  simp [toksLen]

theorem toksLen_append (a b : List Tok) :
    toksLen (a ++ b) = toksLen a + toksLen b := by
  simp [toksLen]

theorem toksLen_mapB (bs : List Nat) : toksLen (bs.map Tok.b) = bs.length := by
  induction bs with
  | nil => rfl
  | cons x xs ih => simp [toksLen, Tok.size] at ih ⊢; omega

theorem toksLen_replicateB (k : Nat) :
    toksLen (List.replicate k (Tok.b 0)) = k := by
  induction k with
  | zero => rfl
  | succ k ih =>
    simp [List.replicate_succ, toksLen_cons, Tok.size, ih]
    omega

theorem splitToks_fst_append_snd (n : Nat) (ts : List Tok) :
    (splitToks n ts).1 ++ (splitToks n ts).2 = ts := by
  induction ts generalizing n with
  | nil => simp [splitToks]
  | cons t ts ih =>
    by_cases h0 : n = 0
    · simp [splitToks, h0]
    · by_cases hle : t.size ≤ n
      · simp [splitToks, h0, hle, ih]
      · simp [splitToks, h0, hle]

theorem takeBytes_zero (ts : List Tok) : takeBytes 0 ts = [] := by
  cases ts <;> simp [takeBytes, splitToks]

theorem dropBytes_zero (ts : List Tok) : dropBytes 0 ts = ts := by
  cases ts <;> simp [dropBytes, splitToks]

theorem splitToks_append_ge (a b : List Tok) (n : Nat) (h : toksLen a ≤ n) :
    splitToks n (a ++ b) =
      (a ++ (splitToks (n - toksLen a) b).1, (splitToks (n - toksLen a) b).2) := by
  induction a generalizing n with
  | nil => simp [toksLen]
  | cons t ts ih =>
    have hp := Tok.size_pos t
    rw [toksLen_cons] at h
    have h0 : ¬ n = 0 := by omega
    have hle : t.size ≤ n := by omega
    have ihh := ih (n - t.size) (by omega)
    simp only [List.cons_append, splitToks, if_neg h0, if_pos hle, List.append_eq]
    rw [ihh, toksLen_cons, Nat.sub_sub]

theorem takeBytes_append_ge (a b : List Tok) (n : Nat) (h : toksLen a ≤ n) :
    takeBytes n (a ++ b) = a ++ takeBytes (n - toksLen a) b := by
  simp [takeBytes, splitToks_append_ge a b n h]

theorem dropBytes_append_ge (a b : List Tok) (n : Nat) (h : toksLen a ≤ n) :
    dropBytes n (a ++ b) = dropBytes (n - toksLen a) b := by
  simp [dropBytes, splitToks_append_ge a b n h]

theorem takeBytes_exact (a b : List Tok) : takeBytes (toksLen a) (a ++ b) = a := by
  rw [takeBytes_append_ge a b _ (Nat.le_refl _), Nat.sub_self, takeBytes_zero,
    List.append_nil]

theorem dropBytes_exact (a b : List Tok) : dropBytes (toksLen a) (a ++ b) = b := by
  rw [dropBytes_append_ge a b _ (Nat.le_refl _), Nat.sub_self, dropBytes_zero]

theorem takeBytes_all (x : List Tok) (n : Nat) (h : toksLen x ≤ n) :
    takeBytes n x = x := by
  have := takeBytes_append_ge x [] n h
  simp [takeBytes, splitToks] at this
  simpa using this

theorem dropBytes_all (x : List Tok) (n : Nat) (h : toksLen x ≤ n) :
    dropBytes n x = [] := by
  have := dropBytes_append_ge x [] n h
  simp [dropBytes, splitToks] at this
  simpa using this

theorem takeBytes_len_le (n : Nat) (x : List Tok) : toksLen (takeBytes n x) ≤ n := by
  induction x generalizing n with
  | nil => simp [takeBytes, splitToks, toksLen]
  | cons t ts ih =>
    by_cases h0 : n = 0
    · simp [takeBytes, splitToks, h0, toksLen]
    · by_cases hle : t.size ≤ n
      · simp only [takeBytes, splitToks, if_neg h0, if_pos hle]
        have := ih (n - t.size)
        simp [toksLen_cons, takeBytes] at this ⊢
        omega
      · simp [takeBytes, splitToks, h0, hle, toksLen]

theorem truncBytes_len (f : List Tok) (n : Nat) :
    toksLen (truncBytes f n) = n := by
  have h := takeBytes_len_le n f
  simp [truncBytes, toksLen_append, toksLen_replicateB]
  omega

theorem writeAt_exact (a b c new : List Tok) (h : toksLen b = toksLen new) :
    writeAt (a ++ b ++ c) (toksLen a) new = a ++ new ++ c := by
  have h1 : a ++ b ++ c = a ++ (b ++ c) := by rw [List.append_assoc]
  rw [writeAt, h1, takeBytes_exact, dropBytes_exact, ← h, dropBytes_exact,
    List.append_assoc]

theorem writeAt_end_replace (a t new : List Tok) (h : toksLen t ≤ toksLen new) :
    writeAt (a ++ t) (toksLen a) new = a ++ new := by
  rw [writeAt, takeBytes_exact, dropBytes_exact, dropBytes_all t _ h,
    List.append_nil]

theorem byteList_mapB (bs : List Nat) : byteList (bs.map Tok.b) = some bs := by
  induction bs with
  | nil => rfl
  | cons x xs ih => simp [byteList, ih]

theorem readBytesAt_exact (a c : List Tok) (bs : List Nat) :
    readBytesAt (a ++ bs.map Tok.b ++ c) (toksLen a) bs.length = some bs := by
  rw [readBytesAt, List.append_assoc, dropBytes_exact,
    show bs.length = toksLen (bs.map Tok.b) from (toksLen_mapB bs).symm,
    takeBytes_exact, byteList_mapB]
  simp [toksLen_mapB]

theorem readBoxAt_exact (a c : List Tok) (x : Box) :
    readBoxAt (a ++ Tok.box x :: c) (toksLen a) = some x := by
  rw [readBoxAt, show a ++ Tok.box x :: c = a ++ (Tok.box x :: c) from rfl,
    dropBytes_exact]

theorem readMacAt_exact (a c : List Tok) (m : FMac) :
    readMacAt (a ++ Tok.mac m :: c) (toksLen a) = some m := by
  rw [readMacAt, show a ++ Tok.mac m :: c = a ++ (Tok.mac m :: c) from rfl,
    dropBytes_exact]

/-! ## Lemmas: little-endian encoding -/

theorem leVal_u32Bytes (n : Nat) (h : n < 4294967296) : leVal (u32Bytes n) = n := by
  simp [leVal, u32Bytes]
  omega

theorem parseSlotBytes_slotBytes4 (a b c d : Nat)
    (ha : a < 4294967296) (hb : b < 4294967296)
    (hc : c < 4294967296) (hd : d < 4294967296) :
    parseSlotBytes (slotBytes4 a b c d) = (a, b, c, d) := by
  simp [parseSlotBytes, slotBytes4, u32Bytes, leVal]
  omega

/-! ## Lemmas: bit flips change what they touch -/

theorem xor_two_pow_ne (v bit : Nat) : v ^^^ 2 ^ bit ≠ v := by
  intro h
  have h2 : v ^^^ (v ^^^ 2 ^ bit) = v ^^^ v := congrArg (fun x => v ^^^ x) h
  rw [← Nat.xor_assoc, Nat.xor_self, Nat.zero_xor] at h2
  have h3 : 0 < 2 ^ bit := Nat.pos_pow_of_pos bit (by norm_num)
  omega

theorem box_corrupt_ne (x : Box) (p bit : Nat) : Box.corrupt x p bit ≠ x := by
  intro h
  have := congrArg Box.depth h
  simp [Box.depth] at this

theorem fmac_corrupt_ne (m : FMac) (p bit : Nat) : FMac.corrupt m p bit ≠ m := by
  intro h
  have := congrArg FMac.depth h
  simp [FMac.depth] at this

theorem flipTok_ne (t : Tok) (p bit : Nat) : flipTok t p bit ≠ t := by
  cases t with
  | b v => simp [flipTok, xor_two_pow_ne]
  | box x => simp [flipTok]; exact box_corrupt_ne x p bit
  | mac m => simp [flipTok]; exact fmac_corrupt_ne m p bit

theorem flipAt_ne (ts : List Tok) (p bit : Nat) (h : p < toksLen ts) :
    flipAt ts p bit ≠ ts := by
  induction ts generalizing p with
  | nil => simp [toksLen] at h
  | cons t r ih =>
    by_cases hlt : p < t.size
    · simp [flipAt, hlt, flipTok_ne t p bit]
    · rw [toksLen_cons] at h
      simp only [flipAt, if_neg hlt, ne_eq, List.cons.injEq, not_and]
      intro _
      exact ih (p - t.size) (by omega)

theorem flipAt_append_right (a b : List Tok) (p bit : Nat) (h : toksLen a ≤ p) :
    flipAt (a ++ b) p bit = a ++ flipAt b (p - toksLen a) bit := by
  induction a generalizing p with
  | nil => simp [toksLen]
  | cons t ts ih =>
    rw [toksLen_cons] at h
    have hp := Tok.size_pos t
    have hlt : ¬ p < t.size := by omega
    simp only [List.cons_append, flipAt, if_neg hlt, List.append_eq]
    rw [ih (p - t.size) (by omega), toksLen_cons, Nat.sub_sub]

theorem flipAt_append_left (a b : List Tok) (p bit : Nat) (h : p < toksLen a) :
    flipAt (a ++ b) p bit = flipAt a p bit ++ b := by
  induction a generalizing p with
  | nil => simp [toksLen] at h
  | cons t ts ih =>
    by_cases hlt : p < t.size
    · simp [flipAt, hlt]
    · rw [toksLen_cons] at h
      simp only [List.cons_append, flipAt, if_neg hlt, List.append_eq]
      rw [ih (p - t.size) (by omega)]

theorem flipAt_mapB (bs : List Nat) (p bit : Nat) (h : p < bs.length) :
    flipAt (bs.map Tok.b) p bit = (flipBytes bs p bit).map Tok.b := by
  induction bs generalizing p with
  | nil => simp at h
  | cons x xs ih =>
    cases p with
    | zero => simp [flipAt, flipTok, flipBytes, Tok.size]
    | succ p =>
      have hlt : ¬ p + 1 < (Tok.b x).size := by simp [Tok.size]
      simp only [List.map_cons, flipAt, if_neg hlt, flipBytes]
      rw [show p + 1 - (Tok.b x).size = p from by simp [Tok.size], ih p (by simpa using h)]

theorem flipBytes_ne (bs : List Nat) (i bit : Nat) (h : i < bs.length) :
    flipBytes bs i bit ≠ bs := by
  induction bs generalizing i with
  | nil => simp at h
  | cons x xs ih =>
    cases i with
    | zero => simp [flipBytes, xor_two_pow_ne]
    | succ i =>
      simp only [flipBytes, ne_eq, List.cons.injEq, not_and]
      intro _
      exact ih i (by simpa using h)

theorem Tok.size_flipTok (t : Tok) (p bit : Nat) : (flipTok t p bit).size = t.size := by
  cases t <;> rfl

theorem toksLen_flipAt (ts : List Tok) (p bit : Nat) :
    toksLen (flipAt ts p bit) = toksLen ts := by
  induction ts generalizing p with
  | nil => rfl
  | cons t r ih =>
    by_cases hlt : p < t.size
    · simp [flipAt, hlt, toksLen_cons, Tok.size_flipTok]
    · simp [flipAt, hlt, toksLen_cons, ih]

/-! ## Lemmas: parsing a well-formed file view -/

theorem toksLen_nil : toksLen ([] : List Tok) = 0 := rfl

theorem toksLen_single_box (x : Box) : toksLen [Tok.box x] = x.ptLen + 16 := by
  simp [toksLen, Tok.size, MAC_SIZE]

theorem toksLen_single_mac (m : FMac) : toksLen [Tok.mac m] = 32 := by
  simp [toksLen, Tok.size, HASH_SIZE]

theorem u32Bytes_length (n : Nat) : (u32Bytes n).length = 4 := rfl

theorem u64Bytes_length (n : Nat) : (u64Bytes n).length = 8 := rfl

theorem FileView.hdrToks_len (v : FileView) (hwf : v.WF) :
    toksLen v.hdrToks = 104 := by
  obtain ⟨h1, h2, h3, h4, h5, _, _⟩ := hwf
  rw [FileView.hdrToks, toksLen_append, toksLen_append, toksLen_append,
    toksLen_append, toksLen_mapB, toksLen_mapB, toksLen_mapB, toksLen_mapB,
    toksLen_single_box, h1, h2, h3, h4, h5]
  simp [SALT_SIZE, MASTER_KEY_SIZE, NONCE_SIZE]

theorem FileView.content_len (v : FileView) (hwf : v.WF) :
    toksLen v.content = 108 + 16 * v.locLen + toksLen v.heap := by
  have hh := v.hdrToks_len hwf
  obtain ⟨_, _, _, _, _, h6, _⟩ := hwf
  rw [FileView.content, toksLen_append, toksLen_append, toksLen_append, hh,
    toksLen_mapB, toksLen_mapB, u32Bytes_length, h6]
  simp [LOC_SIZE]

theorem FileView.toks_len (v : FileView) (hwf : v.WF) :
    toksLen v.toks = 108 + 16 * v.locLen + toksLen v.heap + 32 := by
  rw [FileView.toks, toksLen_append, v.content_len hwf, toksLen_single_mac]

theorem FileView.toks_shape (v : FileView) :
    v.toks = v.vbytes.map Tok.b ++ (v.salt.map Tok.b ++ (Tok.box v.mbox ::
      (v.mnonce.map Tok.b ++ (v.stime.map Tok.b ++ ((u32Bytes v.locLen).map Tok.b ++
      (v.slotBytes.map Tok.b ++ (v.heap ++ [Tok.mac v.fmac]))))))) := by
  simp [FileView.toks, FileView.content, FileView.hdrToks, List.append_assoc]

theorem view_read_salt (v : FileView) (hwf : v.WF) :
    readBytesAt v.toks 8 SALT_SIZE = some v.salt := by
  have h1 := hwf.1
  have h2 := hwf.2.1
  have hshape : v.toks = v.vbytes.map Tok.b ++ v.salt.map Tok.b ++ (Tok.box v.mbox ::
      (v.mnonce.map Tok.b ++ (v.stime.map Tok.b ++ ((u32Bytes v.locLen).map Tok.b ++
      (v.slotBytes.map Tok.b ++ (v.heap ++ [Tok.mac v.fmac])))))) := by
    rw [v.toks_shape, List.append_assoc]
  rw [hshape, show (8 : Nat) = toksLen (v.vbytes.map Tok.b) from by
      rw [toksLen_mapB, h1],
    show SALT_SIZE = v.salt.length from by rw [h2]]
  exact readBytesAt_exact _ _ _

theorem view_read_mbox (v : FileView) (hwf : v.WF) :
    readBoxAt v.toks 24 = some v.mbox := by
  have h1 := hwf.1
  have h2 := hwf.2.1
  have hshape : v.toks = (v.vbytes.map Tok.b ++ v.salt.map Tok.b) ++ Tok.box v.mbox ::
      (v.mnonce.map Tok.b ++ (v.stime.map Tok.b ++ ((u32Bytes v.locLen).map Tok.b ++
      (v.slotBytes.map Tok.b ++ (v.heap ++ [Tok.mac v.fmac]))))) := by
    rw [v.toks_shape, List.append_assoc]
  rw [hshape, show (24 : Nat) = toksLen (v.vbytes.map Tok.b ++ v.salt.map Tok.b) from by
      rw [toksLen_append, toksLen_mapB, toksLen_mapB, h1, h2]; rfl]
  exact readBoxAt_exact _ _ _

theorem view_read_mnonce (v : FileView) (hwf : v.WF) :
    readBytesAt v.toks 72 NONCE_SIZE = some v.mnonce := by
  have h1 := hwf.1
  have h2 := hwf.2.1
  have h3 := hwf.2.2.1
  have h4 := hwf.2.2.2.1
  have hshape : v.toks = (v.vbytes.map Tok.b ++ v.salt.map Tok.b ++ [Tok.box v.mbox])
      ++ v.mnonce.map Tok.b ++ (v.stime.map Tok.b ++ ((u32Bytes v.locLen).map Tok.b ++
      (v.slotBytes.map Tok.b ++ (v.heap ++ [Tok.mac v.fmac])))) := by
    rw [v.toks_shape]
    simp [List.append_assoc]
  rw [hshape, show (72 : Nat) =
      toksLen (v.vbytes.map Tok.b ++ v.salt.map Tok.b ++ [Tok.box v.mbox]) from by
      rw [toksLen_append, toksLen_append, toksLen_mapB, toksLen_mapB,
        toksLen_single_box, h1, h2, h3]; rfl,
    show NONCE_SIZE = v.mnonce.length from by rw [h4]]
  exact readBytesAt_exact _ _ _

theorem view_read_locLen (v : FileView) (hwf : v.WF) :
    readLocLen v.toks = some v.locLen := by
  have hh := v.hdrToks_len hwf
  have h7 := hwf.2.2.2.2.2.2
  have hshape : v.toks = v.hdrToks ++ (u32Bytes v.locLen).map Tok.b ++
      (v.slotBytes.map Tok.b ++ (v.heap ++ [Tok.mac v.fmac])) := by
    simp [FileView.toks, FileView.content, List.append_assoc]
  rw [readLocLen, show HEADER_SIZE - 4 = (104 : Nat) from rfl, hshape,
    show (104 : Nat) = toksLen v.hdrToks from hh.symm,
    show (4 : Nat) = (u32Bytes v.locLen).length from rfl]
  rw [readBytesAt_exact]
  simp [leVal_u32Bytes v.locLen h7]

theorem view_read_slot (v : FileView) (hwf : v.WF) (i : Nat) (hi : i < v.locLen) :
    readSlot v.toks i = some (parseSlotBytes (v.slotB i)) := by
  have hh := v.hdrToks_len hwf
  have h6 := hwf.2.2.2.2.2.1
  have hlen : (v.slotB i).length = LOC_SIZE := by
    simp [FileView.slotB, h6, LOC_SIZE]
    omega
  have htk : (v.slotBytes.take (LOC_SIZE * i)).length = LOC_SIZE * i := by
    simp [h6, LOC_SIZE]
    omega
  have hsb : v.slotBytes = v.slotBytes.take (LOC_SIZE * i) ++ (v.slotB i
      ++ v.slotBytes.drop (LOC_SIZE * i + LOC_SIZE)) := by
    rw [FileView.slotB, ← List.drop_drop, List.take_append_drop,
      List.take_append_drop]
  have hshape : v.toks = (v.hdrToks ++ (u32Bytes v.locLen).map Tok.b
      ++ (v.slotBytes.take (LOC_SIZE * i)).map Tok.b) ++ (v.slotB i).map Tok.b
      ++ ((v.slotBytes.drop (LOC_SIZE * i + LOC_SIZE)).map Tok.b
          ++ (v.heap ++ [Tok.mac v.fmac])) := by
    conv_lhs => rw [FileView.toks, FileView.content, hsb]
    simp [List.append_assoc]
  have hpos : HEADER_SIZE + i * LOC_SIZE = toksLen (v.hdrToks
      ++ (u32Bytes v.locLen).map Tok.b
      ++ (v.slotBytes.take (LOC_SIZE * i)).map Tok.b) := by
    rw [toksLen_append, toksLen_append, hh, toksLen_mapB, toksLen_mapB,
      u32Bytes_length, htk]
    simp [HEADER_SIZE, LOC_SIZE]
    omega
  rw [readSlot, readSlotAt, hshape, hpos,
    show LOC_SIZE = (v.slotB i).length from hlen.symm, readBytesAt_exact]

theorem view_read_fmac (v : FileView) (hwf : v.WF) :
    readMacAt v.toks (toksLen v.toks - HASH_SIZE) = some v.fmac := by
  have hc := v.content_len hwf
  have ht := v.toks_len hwf
  have hpos : toksLen v.toks - HASH_SIZE = toksLen v.content := by
    rw [ht, hc]; simp [HASH_SIZE]
  rw [hpos, FileView.toks]
  exact readMacAt_exact _ _ _

theorem view_take_content (v : FileView) (hwf : v.WF) :
    takeBytes (toksLen v.toks - HASH_SIZE) v.toks = v.content := by
  have hc := v.content_len hwf
  have ht := v.toks_len hwf
  have hpos : toksLen v.toks - HASH_SIZE = toksLen v.content := by
    rw [ht, hc]; simp [HASH_SIZE]
  rw [hpos, FileView.toks, takeBytes_exact]

theorem view_take_hdr (v : FileView) (hwf : v.WF) :
    takeBytes 104 v.toks = v.hdrToks := by
  have hh := v.hdrToks_len hwf
  have hshape : v.toks = v.hdrToks ++ ((u32Bytes v.locLen).map Tok.b ++
      (v.slotBytes.map Tok.b ++ (v.heap ++ [Tok.mac v.fmac]))) := by
    simp [FileView.toks, FileView.content, List.append_assoc]
  rw [hshape, show (104 : Nat) = toksLen v.hdrToks from hh.symm, takeBytes_exact]

/-! ## Lemmas: slot scan and key map -/

theorem scanFrom_spec (f : List Tok) (n : Nat) :
    ∀ start i, scanFrom f start n = some i →
      start ≤ i ∧ i < start + n ∧ slotState f i = some 0
      ∧ ∀ j, start ≤ j → j < i → slotState f j ≠ some 0 := by
  induction n with
  | zero => intro start i h; simp [scanFrom] at h
  | succ n ih =>
    intro start i h
    rw [scanFrom] at h
    by_cases h0 : slotState f start = some 0
    · rw [if_pos h0] at h
      obtain rfl : start = i := by simpa using h
      exact ⟨Nat.le_refl _, by omega, h0, fun j hj1 hj2 => by omega⟩
    · rw [if_neg h0] at h
      obtain ⟨ha, hb, hc, hd⟩ := ih (start + 1) i h
      refine ⟨by omega, by omega, hc, fun j hj1 hj2 => ?_⟩
      by_cases hj : j = start
      · exact hj ▸ h0
      · exact hd j (by omega) hj2

theorem firstFree_spec (f : List Tok) (L i : Nat) (h : firstFree f L = some i) :
    i < L ∧ slotState f i = some 0 ∧ ∀ j, j < i → slotState f j ≠ some 0 := by
  obtain ⟨_, hb, hc, hd⟩ := scanFrom_spec f L 0 i h
  exact ⟨by omega, hc, fun j hj => hd j (Nat.zero_le j) hj⟩

theorem scanFrom_finds (f : List Tok) :
    ∀ n start i, start ≤ i → i < start + n → slotState f i = some 0 →
      (scanFrom f start n).isSome = true := by
  intro n
  induction n with
  | zero =>
    intro start i h1 h2 h3
    omega
  | succ n ih =>
    intro start i h1 h2 h3
    rw [scanFrom]
    by_cases h0 : slotState f start = some 0
    · rw [if_pos h0]
      rfl
    · rw [if_neg h0]
      have hne : start ≠ i := fun he => h0 (he ▸ h3)
      exact ih (start + 1) i (by omega) (by omega) h3

theorem firstFree_isSome (f : List Tok) (L i : Nat) (hi : i < L)
    (h : slotState f i = some 0) : ∃ j, firstFree f L = some j := by
  have hs := scanFrom_finds f L 0 i (Nat.zero_le i) (by omega) h
  rw [firstFree]
  exact Option.isSome_iff_exists.mp hs

theorem get_info_add_entry (m : KeyMap) (k : List Nat) (e : KeyInfoEntry) :
    get_info (add_entry m k e) k = some e := by
  simp [get_info, add_entry, List.find?]

theorem get_info_delete_entry (m : KeyMap) (k : List Nat) :
    get_info (delete_entry m k) k = none := by
  have h : List.find? (fun p => decide (p.1 = k))
      (m.filter (fun p => decide ¬ p.1 = k)) = none := by
    rw [List.find?_eq_none]
    intro p hp
    have := List.of_mem_filter hp
    simp at this ⊢
    exact this
  simp [get_info, delete_entry, h]

/-! ## Lemmas: the append path -/

theorem toksLen_single_b (v : Nat) : toksLen [Tok.b v] = 1 := rfl

theorem toksLen_recordToks (master : List Nat) (ty : Nat) (key value : List Nat)
    (m_time val_len : Nat) (nonce : List Nat) :
    toksLen (recordToks master ty key value m_time val_len nonce) =
      9 + key.length + ((value.take val_len).length + 16) + nonce.length + 32 := by
  simp only [recordToks, toksLen_append, toksLen_mapB, toksLen_single_mac,
    toksLen_single_b, toksLen_single_box, u64Bytes_length, Box.ptLen]

theorem slotBytes4_length (a b c d : Nat) : (slotBytes4 a b c d).length = 16 := rfl

theorem drop_take_append {α : Type} (A B C : List α) (n k : Nat)
    (hA : A.length = n) (hB : B.length = k) :
    ((A ++ B ++ C).drop n).take k = B := by
  subst hA; subst hB
  rw [List.append_assoc, List.drop_left, List.take_left]

/-- A successful `internal_append_key` on a well-formed view: the record goes
to the end of the heap (over the old trailing hash), the first free slot `i`
is rewritten `ACTIVE` with offset `108 + 16 L + |heap|`, the trailing hash is
recomputed over the new content and appended, and the key enters the map. -/
theorem internal_append_key_view (info : VaultInfo) (v : FileView) (hwf : v.WF)
    (ty : Nat) (key value : List Nat) (m_time len : Nat) (nonce : List Nat)
    (i : Nat) (hscan : firstFree v.toks v.locLen = some i) :
    internal_append_key ⟨info, v.toks⟩ ty key value m_time len nonce =
      (VE_SUCCESS,
        ⟨infoAfterAdd info key (HEADER_SIZE + i * LOC_SIZE) m_time ty,
         (vAfterAppend v info.decrypted_master i
           (recordToks info.decrypted_master ty key value m_time len nonce)
           key.length len).toks⟩) := by
  have hi : i < v.locLen := (firstFree_spec _ _ _ hscan).1
  have hh := v.hdrToks_len hwf
  have h6 := hwf.2.2.2.2.2.1
  set rec0 := recordToks info.decrypted_master ty key value m_time len nonce with hrec
  have hfl : toksLen v.toks - HASH_SIZE = toksLen v.content := by
    rw [v.toks_len hwf, v.content_len hwf]; simp [HASH_SIZE]
  have hrge : toksLen [Tok.mac v.fmac] ≤ toksLen rec0 := by
    rw [toksLen_single_mac, hrec, toksLen_recordToks]; omega
  have hf1 : writeAt v.toks (toksLen v.toks - HASH_SIZE) rec0 = v.content ++ rec0 := by
    rw [hfl, FileView.toks, writeAt_end_replace _ _ _ hrge]
  have htk : (v.slotBytes.take (LOC_SIZE * i)).length = LOC_SIZE * i := by
    simp [h6, LOC_SIZE]; omega
  have hlenB : (v.slotB i).length = LOC_SIZE := by
    simp [FileView.slotB, h6, LOC_SIZE]; omega
  have hsb : v.slotBytes = v.slotBytes.take (LOC_SIZE * i) ++ (v.slotB i
      ++ v.slotBytes.drop (LOC_SIZE * i + LOC_SIZE)) := by
    rw [FileView.slotB, ← List.drop_drop, List.take_append_drop,
      List.take_append_drop]
  have hshape : v.content ++ rec0 = (v.hdrToks ++ (u32Bytes v.locLen).map Tok.b
      ++ (v.slotBytes.take (LOC_SIZE * i)).map Tok.b) ++ (v.slotB i).map Tok.b
      ++ ((v.slotBytes.drop (LOC_SIZE * i + LOC_SIZE)).map Tok.b
          ++ (v.heap ++ rec0)) := by
    conv_lhs => rw [FileView.content, hsb]
    simp [List.append_assoc]
  have hpos : HEADER_SIZE + i * LOC_SIZE = toksLen (v.hdrToks
      ++ (u32Bytes v.locLen).map Tok.b
      ++ (v.slotBytes.take (LOC_SIZE * i)).map Tok.b) := by
    rw [toksLen_append, toksLen_append, hh, toksLen_mapB, toksLen_mapB,
      u32Bytes_length, htk]
    simp [HEADER_SIZE, LOC_SIZE]; omega
  have hlen2 : toksLen ((v.slotB i).map Tok.b) =
      toksLen ((slotBytes4 STATE_ACTIVE (toksLen v.toks - HASH_SIZE)
        key.length len).map Tok.b) := by
    rw [toksLen_mapB, toksLen_mapB, hlenB, slotBytes4_length]; rfl
  have hf2 : writeAt (v.content ++ rec0) (HEADER_SIZE + i * LOC_SIZE)
      ((slotBytes4 STATE_ACTIVE (toksLen v.toks - HASH_SIZE) key.length len).map Tok.b) =
      (vAfterAppend v info.decrypted_master i rec0 key.length len).content := by
    rw [hshape, hpos, writeAt_exact _ _ _ _ hlen2]
    rw [show toksLen v.toks - HASH_SIZE = 108 + 16 * v.locLen + toksLen v.heap from by
      rw [v.toks_len hwf]; simp [HASH_SIZE]]
    simp [vAfterAppend, FileView.content, FileView.hdrToks, List.append_assoc]
  simp only [internal_append_key, view_read_locLen v hwf, hscan, hf1, hf2]
  rw [show (vAfterAppend v info.decrypted_master i rec0 key.length len).toks
      = (vAfterAppend v info.decrypted_master i rec0 key.length len).content
        ++ [Tok.mac (FMac.mk info.decrypted_master
             (vAfterAppend v info.decrypted_master i rec0 key.length len).content)]
    from rfl]
  rfl

theorem vAfterAppend_WF (v : FileView) (hwf : v.WF) (master : List Nat)
    (i : Nat) (hi : i < v.locLen) (rec0 : List Tok) (klen vlen : Nat) :
    (vAfterAppend v master i rec0 klen vlen).WF := by
  obtain ⟨h1, h2, h3, h4, h5, h6, h7⟩ := hwf
  refine ⟨h1, h2, h3, h4, h5, ?_, h7⟩
  simp [vAfterAppend, slotBytes4_length, h6, LOC_SIZE]
  omega

/-- Parsing back a record the append wrote: each component of
`recordToks` is recovered by the reads `open_key` performs. -/
theorem readRecordAt_of_rec (A rest : List Tok) (master : List Nat) (ty : Nat)
    (key value : List Nat) (m_time len : Nat) (nonce : List Nat)
    (hvlen : value.length = len) (hnl : nonce.length = NONCE_SIZE) :
    readRecordAt (A ++ recordToks master ty key value m_time len nonce ++ rest)
      (toksLen A) key.length len =
      some ⟨u64Bytes m_time, ty, key, Box.seal master nonce (value.take len), nonce,
        FMac.mk master ((u64Bytes m_time).map Tok.b ++ [Tok.b ty] ++ key.map Tok.b
          ++ [Tok.box (Box.seal master nonce (value.take len))] ++ nonce.map Tok.b)⟩ := by
  set bx := Box.seal master nonce (value.take len) with hbx
  set rm := FMac.mk master ((u64Bytes m_time).map Tok.b ++ [Tok.b ty] ++ key.map Tok.b
    ++ [Tok.box bx] ++ nonce.map Tok.b) with hrm
  have htake : (value.take len).length = len := by
    simp [List.length_take, hvlen]
  have hbsz : (Tok.box bx).size = len + 16 := by
    simp [Tok.size, hbx, Box.ptLen, MAC_SIZE, htake]
  have hs : A ++ recordToks master ty key value m_time len nonce ++ rest
      = A ++ (u64Bytes m_time).map Tok.b ++ (([ty] : List Nat).map Tok.b
        ++ (key.map Tok.b ++ (Tok.box bx :: (nonce.map Tok.b
        ++ (Tok.mac rm :: rest))))) := by
    simp [recordToks, hbx, hrm, List.append_assoc]
  have p1 : toksLen A + 8 = toksLen (A ++ (u64Bytes m_time).map Tok.b) := by
    rw [toksLen_append, toksLen_mapB, u64Bytes_length]
  have p2 : toksLen A + ENTRY_HEADER_SIZE
      = toksLen (A ++ (u64Bytes m_time).map Tok.b ++ ([ty] : List Nat).map Tok.b) := by
    rw [toksLen_append, toksLen_append, toksLen_mapB, toksLen_mapB, u64Bytes_length]
    simp [ENTRY_HEADER_SIZE]
  have p3 : toksLen A + ENTRY_HEADER_SIZE + key.length
      = toksLen (A ++ (u64Bytes m_time).map Tok.b ++ ([ty] : List Nat).map Tok.b
        ++ key.map Tok.b) := by
    rw [toksLen_append, ← p2, toksLen_mapB]
  have p4 : toksLen A + ENTRY_HEADER_SIZE + key.length + len + MAC_SIZE
      = toksLen (A ++ (u64Bytes m_time).map Tok.b ++ ([ty] : List Nat).map Tok.b
        ++ key.map Tok.b ++ [Tok.box bx]) := by
    rw [toksLen_append, ← p3, toksLen_cons, toksLen_nil, hbsz]
    simp [MAC_SIZE]
    omega
  have p5 : toksLen A + ENTRY_HEADER_SIZE + key.length + len + MAC_SIZE + NONCE_SIZE
      = toksLen (A ++ (u64Bytes m_time).map Tok.b ++ ([ty] : List Nat).map Tok.b
        ++ key.map Tok.b ++ [Tok.box bx] ++ nonce.map Tok.b) := by
    rw [toksLen_append, ← p4, toksLen_mapB, hnl]
  have e1 : readBytesAt (A ++ recordToks master ty key value m_time len nonce ++ rest)
      (toksLen A) 8 = some (u64Bytes m_time) := by
    rw [hs, show (8 : Nat) = (u64Bytes m_time).length from rfl]
    have := readBytesAt_exact A (([ty] : List Nat).map Tok.b ++ (key.map Tok.b
      ++ (Tok.box bx :: (nonce.map Tok.b ++ (Tok.mac rm :: rest))))) (u64Bytes m_time)
    simpa [List.append_assoc] using this
  have e2 : readBytesAt (A ++ recordToks master ty key value m_time len nonce ++ rest)
      (toksLen A + 8) 1 = some [ty] := by
    rw [hs, p1, show (1 : Nat) = ([ty] : List Nat).length from rfl]
    have := readBytesAt_exact (A ++ (u64Bytes m_time).map Tok.b)
      (key.map Tok.b ++ (Tok.box bx :: (nonce.map Tok.b ++ (Tok.mac rm :: rest))))
      ([ty] : List Nat)
    simpa [List.append_assoc] using this
  have e3 : readBytesAt (A ++ recordToks master ty key value m_time len nonce ++ rest)
      (toksLen A + ENTRY_HEADER_SIZE) key.length = some key := by
    rw [hs, p2]
    have := readBytesAt_exact (A ++ (u64Bytes m_time).map Tok.b
      ++ ([ty] : List Nat).map Tok.b)
      (Tok.box bx :: (nonce.map Tok.b ++ (Tok.mac rm :: rest))) key
    simpa [List.append_assoc] using this
  have e4 : readBoxAt (A ++ recordToks master ty key value m_time len nonce ++ rest)
      (toksLen A + ENTRY_HEADER_SIZE + key.length) = some bx := by
    rw [hs, p3]
    have := readBoxAt_exact (A ++ (u64Bytes m_time).map Tok.b
      ++ ([ty] : List Nat).map Tok.b ++ key.map Tok.b)
      (nonce.map Tok.b ++ (Tok.mac rm :: rest)) bx
    simpa [List.append_assoc] using this
  have e5 : readBytesAt (A ++ recordToks master ty key value m_time len nonce ++ rest)
      (toksLen A + ENTRY_HEADER_SIZE + key.length + len + MAC_SIZE) NONCE_SIZE
      = some nonce := by
    rw [hs, p4, show NONCE_SIZE = nonce.length from hnl.symm]
    have := readBytesAt_exact (A ++ (u64Bytes m_time).map Tok.b
      ++ ([ty] : List Nat).map Tok.b ++ key.map Tok.b ++ [Tok.box bx])
      (Tok.mac rm :: rest) nonce
    simpa [List.append_assoc] using this
  have e6 : readMacAt (A ++ recordToks master ty key value m_time len nonce ++ rest)
      (toksLen A + ENTRY_HEADER_SIZE + key.length + len + MAC_SIZE + NONCE_SIZE)
      = some rm := by
    rw [hs, p5]
    have := readMacAt_exact (A ++ (u64Bytes m_time).map Tok.b
      ++ ([ty] : List Nat).map Tok.b ++ key.map Tok.b ++ [Tok.box bx]
      ++ nonce.map Tok.b) rest rm
    simpa [List.append_assoc] using this
  rw [readRecordAt, e1, e2, e3, e4, e5, e6]
  simp [hbx, Box.ptLen, htake]

/-- Reading the key back immediately after a successful append: `open_key`
finds the new map entry, reads the slot and the record, passes the entry-hash
check, decrypts, and fills the hot-key cache with exactly the added value. -/
theorem open_key_after_append (info : VaultInfo) (v : FileView) (hwf : v.WF)
    (ty : Nat) (key value : List Nat) (m_time len : Nat) (nonce : List Nat) (i : Nat)
    (hscan : firstFree v.toks v.locLen = some i)
    (hopen : info.is_open = true) (hcache : info.current_box.key ≠ key)
    (hkl : key.length ≤ BOX_KEY_SIZE - 1)
    (hvlen : value.length = len) (hnl : nonce.length = NONCE_SIZE)
    (hfl32 : 108 + 16 * v.locLen + toksLen v.heap < 4294967296)
    (hlen32 : len < 4294967296)
    (st1 : VState)
    (hst1 : st1 = ⟨infoAfterAdd info key (HEADER_SIZE + i * LOC_SIZE) m_time ty,
      (vAfterAppend v info.decrypted_master i
        (recordToks info.decrypted_master ty key value m_time len nonce)
        key.length len).toks⟩) :
    open_key st1 key =
      (VE_SUCCESS, ⟨{ st1.info with current_box := ⟨key, ty, len, value⟩ }, st1.file⟩) := by
  subst hst1
  have hi : i < v.locLen := (firstFree_spec _ _ _ hscan).1
  have h6 := hwf.2.2.2.2.2.1
  set master := info.decrypted_master with hmaster
  set rec0 := recordToks master ty key value m_time len nonce with hrec
  set fl := 108 + 16 * v.locLen + toksLen v.heap with hfldef
  set v' := vAfterAppend v master i rec0 key.length len with hv'
  have hwf' : v'.WF := vAfterAppend_WF v hwf master i hi rec0 key.length len
  have htk : (v.slotBytes.take (LOC_SIZE * i)).length = LOC_SIZE * i := by
    simp [h6, LOC_SIZE]; omega
  have hk1 : ¬ key.length > BOX_KEY_SIZE - 1 := Nat.not_lt.mpr hkl
  have hsb' : v'.slotBytes = v.slotBytes.take (LOC_SIZE * i)
      ++ slotBytes4 STATE_ACTIVE fl key.length len
      ++ v.slotBytes.drop (LOC_SIZE * i + LOC_SIZE) := by
    simp [hv', vAfterAppend]
  have hsbB : v'.slotB i = slotBytes4 STATE_ACTIVE fl key.length len := by
    rw [FileView.slotB, hsb']
    exact drop_take_append _ _ _ _ _ htk (slotBytes4_length _ _ _ _)
  have hLL : v'.locLen = v.locLen := by simp [hv', vAfterAppend]
  have hslot : readSlotAt v'.toks (HEADER_SIZE + i * LOC_SIZE)
      = some (STATE_ACTIVE, fl, key.length, len) := by
    have hrs := view_read_slot v' hwf' i (by rw [hLL]; exact hi)
    rw [readSlot] at hrs
    rw [hrs, hsbB, parseSlotBytes_slotBytes4]
    · simp [STATE_ACTIVE]
    · omega
    · have := hkl
      simp [BOX_KEY_SIZE] at this
      omega
    · exact hlen32
  have hhdr' : v'.hdrToks = v.hdrToks := by
    simp [hv', vAfterAppend, FileView.hdrToks]
  have hsb'len : v'.slotBytes.length = 16 * v.locLen := by
    rw [hsb']
    simp [slotBytes4_length, htk, h6, LOC_SIZE]
    omega
  have hshape2 : v'.toks = (v.hdrToks ++ (u32Bytes v.locLen).map Tok.b
      ++ v'.slotBytes.map Tok.b ++ v.heap) ++ rec0 ++ [Tok.mac v'.fmac] := by
    rw [show v'.toks = v'.content ++ [Tok.mac v'.fmac] from rfl]
    rw [show v'.content = v'.hdrToks ++ (u32Bytes v'.locLen).map Tok.b
      ++ v'.slotBytes.map Tok.b ++ v'.heap from rfl]
    rw [hhdr', hLL, show v'.heap = v.heap ++ rec0 from by simp [hv', vAfterAppend]]
    simp [List.append_assoc]
  have hApos : fl = toksLen (v.hdrToks ++ (u32Bytes v.locLen).map Tok.b
      ++ v'.slotBytes.map Tok.b ++ v.heap) := by
    rw [toksLen_append, toksLen_append, toksLen_append, v.hdrToks_len hwf,
      toksLen_mapB, toksLen_mapB, u32Bytes_length, hsb'len, hfldef]
  have hrr : readRecordAt v'.toks fl key.length len
      = some ⟨u64Bytes m_time, ty, key, Box.seal master nonce (value.take len), nonce,
          FMac.mk master ((u64Bytes m_time).map Tok.b ++ [Tok.b ty] ++ key.map Tok.b
            ++ [Tok.box (Box.seal master nonce (value.take len))] ++ nonce.map Tok.b)⟩ := by
    rw [hshape2, hApos]
    exact readRecordAt_of_rec _ _ master ty key value m_time len nonce hvlen hnl
  have hmapget : get_info (infoAfterAdd info key (HEADER_SIZE + i * LOC_SIZE) m_time ty).key_info key
      = some ⟨HEADER_SIZE + i * LOC_SIZE, m_time, ty⟩ := by
    simp [infoAfterAdd, get_info_add_entry]
  unfold open_key
  rw [if_neg hk1,
    if_neg (show ¬ ¬ (infoAfterAdd info key (HEADER_SIZE + i * LOC_SIZE) m_time ty).is_open
        = true from by simp [infoAfterAdd, hopen]),
    hmapget]
  dsimp only [infoAfterAdd]
  rw [if_neg (fun h => hcache h.2), hslot]
  dsimp only
  rw [hrr]
  dsimp only [recPrefixToks]
  rw [if_neg (fun h => h rfl)]
  dsimp only [secretbox_open]
  rw [if_pos (And.intro rfl rfl)]
  rw [show value.take len = value from by rw [← hvlen, List.take_length]]

/-- A failed slot scan makes `internal_append_key` return `NOSPACE` with the
state untouched. -/
theorem append_key_nospace (info : VaultInfo) (v : FileView) (hwf : v.WF)
    (ty : Nat) (key value : List Nat) (m_time len : Nat) (nonce : List Nat)
    (hscan : firstFree v.toks v.locLen = none) :
    internal_append_key ⟨info, v.toks⟩ ty key value m_time len nonce
      = (VE_NOSPACE, ⟨info, v.toks⟩) := by
  unfold internal_append_key
  dsimp only
  rw [view_read_locLen v hwf]
  dsimp only
  rw [hscan]

/-- One successful raw append, then `open_key`, `place_open_value` and
`last_modified_time` on the resulting state return exactly what was
appended. -/
theorem append_roundtrip (info : VaultInfo) (v : FileView) (hwf : v.WF)
    (ty : Nat) (key value : List Nat) (m_time len : Nat) (nonce : List Nat)
    (i : Nat) (hscan : firstFree v.toks v.locLen = some i)
    (hopen : info.is_open = true) (hcache : info.current_box.key ≠ key)
    (hkl : key.length ≤ BOX_KEY_SIZE - 1)
    (hvlen : value.length = len) (hnl : nonce.length = NONCE_SIZE)
    (hfl32 : 108 + 16 * v.locLen + toksLen v.heap < 4294967296)
    (hlen32 : len < 4294967296) :
    ∃ st1 st2 : VState,
      internal_append_key ⟨info, v.toks⟩ ty key value m_time len nonce
        = (VE_SUCCESS, st1)
      ∧ open_key st1 key = (VE_SUCCESS, st2)
      ∧ place_open_value st2 = (VE_SUCCESS, st2, value, len, ty)
      ∧ last_modified_time st2 key = m_time := by
  have hik := internal_append_key_view info v hwf ty key value m_time len nonce i hscan
  have hoa := open_key_after_append info v hwf ty key value m_time len nonce i hscan
    hopen hcache hkl hvlen hnl hfl32 hlen32
    ⟨infoAfterAdd info key (HEADER_SIZE + i * LOC_SIZE) m_time ty,
     (vAfterAppend v info.decrypted_master i
       (recordToks info.decrypted_master ty key value m_time len nonce)
       key.length len).toks⟩ rfl
  have hAopen : (infoAfterAdd info key (HEADER_SIZE + i * LOC_SIZE) m_time ty).is_open
      = true := by
    simp [infoAfterAdd, hopen]
  have hO : ({ infoAfterAdd info key (HEADER_SIZE + i * LOC_SIZE) m_time ty with
      current_box := (⟨key, ty, len, value⟩ : VaultBox) } : VaultInfo).is_open = true :=
    hAopen
  have hplace : place_open_value
      ⟨{ infoAfterAdd info key (HEADER_SIZE + i * LOC_SIZE) m_time ty with
          current_box := (⟨key, ty, len, value⟩ : VaultBox) },
        (vAfterAppend v info.decrypted_master i
          (recordToks info.decrypted_master ty key value m_time len nonce)
          key.length len).toks⟩
      = (VE_SUCCESS,
         ⟨{ infoAfterAdd info key (HEADER_SIZE + i * LOC_SIZE) m_time ty with
             current_box := (⟨key, ty, len, value⟩ : VaultBox) },
           (vAfterAppend v info.decrypted_master i
             (recordToks info.decrypted_master ty key value m_time len nonce)
             key.length len).toks⟩,
         value, len, ty) := by
    unfold place_open_value
    rw [if_neg (fun h => h hO)]
    dsimp only
    rw [← hvlen, List.take_length]
  have hlmt : last_modified_time
      ⟨{ infoAfterAdd info key (HEADER_SIZE + i * LOC_SIZE) m_time ty with
          current_box := (⟨key, ty, len, value⟩ : VaultBox) },
        (vAfterAppend v info.decrypted_master i
          (recordToks info.decrypted_master ty key value m_time len nonce)
          key.length len).toks⟩ key = m_time := by
    unfold last_modified_time
    rw [if_neg (show ¬ key.length > BOX_KEY_SIZE - 1 from by push_neg; exact hkl)]
    dsimp only
    rw [if_neg (fun h => h hO)]
    rw [show ({ infoAfterAdd info key (HEADER_SIZE + i * LOC_SIZE) m_time ty with
        current_box := (⟨key, ty, len, value⟩ : VaultBox) } : VaultInfo).key_info
        = add_entry info.key_info key ⟨HEADER_SIZE + i * LOC_SIZE, m_time, ty⟩ from rfl]
    rw [get_info_add_entry]
  exact ⟨_, _, hik, hoa, hplace, hlmt⟩

/-! ## Lemmas: the compaction path -/

theorem u32sub_exact (a b : Nat) (hb : b ≤ a) (ha : a < 4294967296) :
    u32sub a b = a - b := by
  unfold u32sub
  omega

theorem slotsToBytes_length (ls : List (Nat × Nat × Nat × Nat)) :
    (slotsToBytes ls).length = 16 * ls.length := by
  induction ls with
  | nil => rfl
  | cons s ls ih =>
    simp [slotsToBytes, slotBytes4_length] at ih ⊢
    omega

theorem condStep_len_lri (odo ndo : Nat) (acc : CondAcc) (i : Nat) :
    (condStep odo ndo acc i).loc.length = acc.loc.length
    ∧ (condStep odo ndo acc i).lri ≤ acc.lri + 1 := by
  unfold condStep
  dsimp only
  split
  · exact ⟨rfl, by first | omega | (dsimp only; omega)⟩
  · split
    · split
      · exact ⟨rfl, by first | omega | (dsimp only; omega)⟩
      · exact ⟨by simp, by first | omega | (dsimp only; omega)⟩
    · split
      · exact ⟨rfl, by first | omega | (dsimp only; omega)⟩
      · split
        · exact ⟨rfl, by first | omega | (dsimp only; omega)⟩
        · exact ⟨rfl, by first | omega | (dsimp only; omega)⟩

theorem cond_foldl_spec (odo ndo : Nat) (l : List Nat) :
    ∀ acc : CondAcc,
      (l.foldl (condStep odo ndo) acc).loc.length = acc.loc.length
      ∧ (l.foldl (condStep odo ndo) acc).lri ≤ acc.lri + l.length := by
  induction l with
  | nil => intro acc; simp
  | cons x xs ih =>
    intro acc
    obtain ⟨hl, hr⟩ := ih (condStep odo ndo acc x)
    obtain ⟨hl2, hr2⟩ := condStep_len_lri odo ndo acc x
    rw [List.foldl_cons]
    refine ⟨by rw [hl, hl2], ?_⟩
    simp only [List.length_cons]
    omega

/-- A successful compaction reshapes the file into a well-formed view with a
doubled slot table (keeping the 104 header bytes), truncates, appends a fresh
trailing hash over everything before it, and rebuilds the key map from the
new file. -/
theorem internal_condense_file_view (info : VaultInfo) (v : FileView) (hwf : v.WF)
    (hopen : info.is_open = true)
    (hsz : 108 + 16 * v.locLen + toksLen v.heap < 4294967296) :
    ∃ vc : FileView,
      internal_condense_file ⟨info, v.toks⟩ =
        (VE_SUCCESS, ⟨{ info with key_info := create_key_map vc.toks }, vc.toks⟩)
      ∧ vc.WF ∧ vc.locLen = v.locLen * 2
      ∧ vc.vbytes = v.vbytes ∧ vc.salt = v.salt ∧ vc.mbox = v.mbox
      ∧ vc.mnonce = v.mnonce ∧ vc.stime = v.stime
      ∧ vc.fmac = FMac.mk info.decrypted_master vc.content
      ∧ ∃ valid sb1, valid ≤ v.locLen ∧ sb1.length = LOC_SIZE * valid
          ∧ vc.slotBytes = sb1
            ++ List.replicate ((v.locLen * 2 - valid) * LOC_SIZE) 0 := by
  obtain ⟨h1, h2, h3, h4, h5, h6, h7⟩ := hwf
  have hwf' : v.WF := ⟨h1, h2, h3, h4, h5, h6, h7⟩
  have hh104 := v.hdrToks_len hwf'
  set L := v.locLen with hLdef
  set H := toksLen v.heap with hHdef
  have hcfs : toksLen v.toks - HASH_SIZE = 108 + 16 * L + H := by
    rw [v.toks_len hwf']; simp [HASH_SIZE]
  have hodo : L * LOC_SIZE + HEADER_SIZE = 108 + 16 * L := by
    simp [LOC_SIZE, HEADER_SIZE]; omega
  have hbl : u32sub (toksLen v.toks - HASH_SIZE) (L * LOC_SIZE + HEADER_SIZE) = H := by
    rw [hcfs, hodo, u32sub_exact _ _ (by omega) (by omega)]
    omega
  have hpre : v.toks = (v.hdrToks ++ (u32Bytes L).map Tok.b ++ v.slotBytes.map Tok.b)
      ++ (v.heap ++ [Tok.mac v.fmac]) := by
    simp [FileView.toks, FileView.content, List.append_assoc]
  have hprelen : toksLen (v.hdrToks ++ (u32Bytes L).map Tok.b ++ v.slotBytes.map Tok.b)
      = 108 + 16 * L := by
    rw [toksLen_append, toksLen_append, hh104, toksLen_mapB, toksLen_mapB,
      u32Bytes_length, h6]
    simp [LOC_SIZE]
  have hdropOld : dropBytes (L * LOC_SIZE + HEADER_SIZE) v.toks
      = v.heap ++ [Tok.mac v.fmac] := by
    rw [hodo, hpre, ← hprelen, dropBytes_exact]
  have hbox0 : takeBytes H (dropBytes (L * LOC_SIZE + HEADER_SIZE) v.toks) = v.heap := by
    rw [hdropOld, hHdef, takeBytes_exact]
  unfold internal_condense_file
  dsimp only
  rw [if_neg (by simp [hopen]), view_read_locLen v hwf']
  dsimp only
  rw [hbl, hbox0]
  set loc0 := (List.range L).map (fun i =>
    match readSlot v.toks i with | some s => s | none => (0, 0, 0, 0)) with hloc0
  set acc := (List.range L).foldl
    (condStep (L * LOC_SIZE + HEADER_SIZE) (L * LOC_SIZE + (L * LOC_SIZE + HEADER_SIZE)))
    ⟨v.heap, loc0, 0, 0, false⟩ with hacc
  have hloc0len : loc0.length = L := by simp [hloc0]
  have haccspec := cond_foldl_spec
    (L * LOC_SIZE + HEADER_SIZE) (L * LOC_SIZE + (L * LOC_SIZE + HEADER_SIZE))
    (List.range L) ⟨v.heap, loc0, 0, 0, false⟩
  have hlri : acc.lri ≤ L := by
    have := haccspec.2
    rw [← hacc] at this
    simpa using this
  have hlocacc : acc.loc.length = L := by
    have := haccspec.1
    rw [← hacc] at this
    simpa [hloc0len] using this
  set T : List Nat := u32Bytes (L * 2) ++ slotsToBytes (acc.loc.take acc.lri)
    ++ List.replicate ((L * 2 - acc.lri) * LOC_SIZE) 0 with hT
  have hTlen : T.length = 4 + 32 * L := by
    rw [hT]
    simp [slotsToBytes_length, u32Bytes_length, List.length_take, hlocacc, LOC_SIZE]
    omega
  set ndo := L * LOC_SIZE + (L * LOC_SIZE + HEADER_SIZE) with hndo
  have hndoval : ndo = 108 + 32 * L := by rw [hndo]; simp [LOC_SIZE, HEADER_SIZE]; omega
  set P := takeBytes acc.drl acc.box_data with hP
  set f1 := writeAt v.toks ndo P with hf1
  have hhdrpre : v.toks = v.hdrToks ++ ((u32Bytes L).map Tok.b
      ++ v.slotBytes.map Tok.b ++ (v.heap ++ [Tok.mac v.fmac])) := by
    simp [FileView.toks, FileView.content, List.append_assoc]
  have hf1shape : f1 = v.hdrToks ++ (takeBytes (ndo - 104) ((u32Bytes L).map Tok.b
      ++ v.slotBytes.map Tok.b ++ (v.heap ++ [Tok.mac v.fmac])) ++ P
      ++ dropBytes (toksLen P) (dropBytes ndo v.toks)) := by
    rw [hf1, writeAt, hhdrpre,
      takeBytes_append_ge v.hdrToks _ ndo (by rw [hh104, hndoval]; omega), hh104]
    simp [List.append_assoc]
  have hf2pre : takeBytes 104 f1 = v.hdrToks := by
    rw [hf1shape, ← hh104, takeBytes_exact]
  have hf2drop : dropBytes 104 f1 = takeBytes (ndo - 104) ((u32Bytes L).map Tok.b
      ++ v.slotBytes.map Tok.b ++ (v.heap ++ [Tok.mac v.fmac])) ++ P
      ++ dropBytes (toksLen P) (dropBytes ndo v.toks) := by
    rw [hf1shape, ← hh104, dropBytes_exact]
  set X := takeBytes (ndo - 104) ((u32Bytes L).map Tok.b
      ++ v.slotBytes.map Tok.b ++ (v.heap ++ [Tok.mac v.fmac])) ++ P
      ++ dropBytes (toksLen P) (dropBytes ndo v.toks) with hX
  set f2 := writeAt f1 (HEADER_SIZE - 4) (T.map Tok.b) with hf2
  have hf2shape : f2 = v.hdrToks ++ T.map Tok.b ++ dropBytes (toksLen (T.map Tok.b)) X := by
    rw [hf2, writeAt, show HEADER_SIZE - 4 = (104 : Nat) from rfl, hf2pre, hf2drop]
  set Z := dropBytes (toksLen (T.map Tok.b)) X with hZ
  set nfs := ndo + acc.drl with hnfs
  set f5 := truncBytes f2 nfs with hf5
  have hTmlen : toksLen (T.map Tok.b) = 4 + 32 * L := by
    rw [toksLen_mapB, hTlen]
  have htake : takeBytes nfs f2 = v.hdrToks ++ (T.map Tok.b ++ takeBytes acc.drl Z) := by
    rw [hf2shape, List.append_assoc,
      takeBytes_append_ge v.hdrToks _ nfs (by rw [hh104, hnfs, hndoval]; omega), hh104,
      takeBytes_append_ge (T.map Tok.b) _ _ (by rw [hTmlen, hnfs, hndoval]; omega), hTmlen,
      show nfs - 104 - (4 + 32 * L) = acc.drl from by rw [hnfs, hndoval]; omega]
  have htklen : toksLen (takeBytes nfs f2) = 108 + 32 * L + toksLen (takeBytes acc.drl Z) := by
    rw [htake, toksLen_append, toksLen_append, hh104, hTmlen]
    omega
  set HP := takeBytes acc.drl Z
      ++ List.replicate (nfs - (108 + 32 * L + toksLen (takeBytes acc.drl Z))) (Tok.b 0) with hHP
  have hf5shape : f5 = v.hdrToks ++ T.map Tok.b ++ HP := by
    rw [hf5, truncBytes, htklen, htake, hHP]
    simp [List.append_assoc]
  refine ⟨⟨v.vbytes, v.salt, v.mbox, v.mnonce, v.stime, L * 2,
    slotsToBytes (acc.loc.take acc.lri) ++ List.replicate ((L * 2 - acc.lri) * LOC_SIZE) 0,
    HP, FMac.mk info.decrypted_master f5⟩, ?_, ?_, ?_, rfl, rfl, rfl, rfl, rfl, ?_, ?_⟩
  · have hcontent : FileView.content ⟨v.vbytes, v.salt, v.mbox, v.mnonce, v.stime, L * 2,
        slotsToBytes (acc.loc.take acc.lri) ++ List.replicate ((L * 2 - acc.lri) * LOC_SIZE) 0,
        HP, FMac.mk info.decrypted_master f5⟩ = f5 := by
      rw [hf5shape]
      simp [FileView.content, FileView.hdrToks, hT, List.append_assoc]
    rw [show FileView.toks ⟨v.vbytes, v.salt, v.mbox, v.mnonce, v.stime, L * 2,
        slotsToBytes (acc.loc.take acc.lri) ++ List.replicate ((L * 2 - acc.lri) * LOC_SIZE) 0,
        HP, FMac.mk info.decrypted_master f5⟩
      = FileView.content ⟨v.vbytes, v.salt, v.mbox, v.mnonce, v.stime, L * 2,
        slotsToBytes (acc.loc.take acc.lri) ++ List.replicate ((L * 2 - acc.lri) * LOC_SIZE) 0,
        HP, FMac.mk info.decrypted_master f5⟩ ++ [Tok.mac (FMac.mk info.decrypted_master f5)]
      from rfl, hcontent]
  · refine ⟨h1, h2, h3, h4, h5, ?_, show L * 2 < 4294967296 by omega⟩
    simp only [slotsToBytes_length, List.length_append, List.length_replicate,
      List.length_take, hlocacc]
    simp [LOC_SIZE]
    omega
  · rfl
  · have hcontent : FileView.content ⟨v.vbytes, v.salt, v.mbox, v.mnonce, v.stime, L * 2,
        slotsToBytes (acc.loc.take acc.lri) ++ List.replicate ((L * 2 - acc.lri) * LOC_SIZE) 0,
        HP, FMac.mk info.decrypted_master f5⟩ = f5 := by
      rw [hf5shape]
      simp [FileView.content, FileView.hdrToks, hT, List.append_assoc]
    rw [hcontent]
  · refine ⟨acc.lri, slotsToBytes (acc.loc.take acc.lri), hlri, ?_, rfl⟩
    rw [slotsToBytes_length, List.length_take, hlocacc]
    simp [LOC_SIZE]
    omega

/-! ## Lemmas: tamper detection outside the password envelope -/

/-- Flipping any bit of `file[0 .. len-32]` outside the password envelope
bytes `[8, 96)` makes `open_vault` with the correct password fail with
`VE_FILE`: the envelope still opens, but the recomputed file hash differs
from the stored one. -/
theorem open_vault_flip_FILE (pw master : List Nat) (v : FileView) (hwf : v.WF)
    (hmbox : v.mbox = Box.seal (pwhash pw v.salt) v.mnonce master)
    (hfmac : v.fmac = FMac.mk master v.content)
    (p bit : Nat) (hp : p < toksLen v.content) (henv : p < 8 ∨ 96 ≤ p) :
    open_vault pw (flipAt v.toks p bit) = (VE_FILE, none) := by
  obtain ⟨h1, h2, h3, h4, h5, h6, h7⟩ := hwf
  have hVb : toksLen (v.vbytes.map Tok.b) = 8 := by rw [toksLen_mapB, h1]
  have hsplit : flipAt v.toks p bit = flipAt v.content p bit ++ [Tok.mac v.fmac] := by
    rw [FileView.toks, flipAt_append_left _ _ _ _ hp]
  have hlenC : toksLen (flipAt v.content p bit) = toksLen v.content :=
    toksLen_flipAt _ _ _
  have hreads : readBytesAt (flipAt v.toks p bit) 8 SALT_SIZE = some v.salt
      ∧ readBoxAt (flipAt v.toks p bit) 24 = some v.mbox
      ∧ readBytesAt (flipAt v.toks p bit) 72 NONCE_SIZE = some v.mnonce := by
    rcases henv with hlt8 | hge96
    · have hcr : v.content = v.vbytes.map Tok.b ++ (v.salt.map Tok.b
          ++ (Tok.box v.mbox :: (v.mnonce.map Tok.b ++ (v.stime.map Tok.b
          ++ ((u32Bytes v.locLen).map Tok.b ++ (v.slotBytes.map Tok.b ++ v.heap)))))) := by
        simp [FileView.content, FileView.hdrToks, List.append_assoc]
      have hVf : flipAt v.content p bit = flipAt (v.vbytes.map Tok.b) p bit
          ++ (v.salt.map Tok.b ++ (Tok.box v.mbox :: (v.mnonce.map Tok.b
          ++ (v.stime.map Tok.b ++ ((u32Bytes v.locLen).map Tok.b
          ++ (v.slotBytes.map Tok.b ++ v.heap)))))) := by
        rw [hcr, flipAt_append_left _ _ _ _ (by rw [hVb]; exact hlt8)]
      have hVbf : toksLen (flipAt (v.vbytes.map Tok.b) p bit) = 8 := by
        rw [toksLen_flipAt, hVb]
      refine ⟨?_, ?_, ?_⟩
      · rw [hsplit, hVf,
          show (8 : Nat) = toksLen (flipAt (v.vbytes.map Tok.b) p bit) from hVbf.symm,
          show SALT_SIZE = v.salt.length from by rw [h2]]
        have := readBytesAt_exact (flipAt (v.vbytes.map Tok.b) p bit)
          (Tok.box v.mbox :: (v.mnonce.map Tok.b ++ (v.stime.map Tok.b
            ++ ((u32Bytes v.locLen).map Tok.b ++ (v.slotBytes.map Tok.b ++ v.heap))))
           ++ [Tok.mac v.fmac]) v.salt
        simpa [List.append_assoc] using this
      · rw [hsplit, hVf,
          show (24 : Nat) = toksLen (flipAt (v.vbytes.map Tok.b) p bit
            ++ v.salt.map Tok.b) from by
            rw [toksLen_append, toksLen_flipAt, hVb, toksLen_mapB, h2]
            rfl]
        have := readBoxAt_exact (flipAt (v.vbytes.map Tok.b) p bit ++ v.salt.map Tok.b)
          (v.mnonce.map Tok.b ++ (v.stime.map Tok.b ++ ((u32Bytes v.locLen).map Tok.b
            ++ (v.slotBytes.map Tok.b ++ v.heap))) ++ [Tok.mac v.fmac]) v.mbox
        simpa [List.append_assoc] using this
      · rw [hsplit, hVf,
          show (72 : Nat) = toksLen (flipAt (v.vbytes.map Tok.b) p bit
            ++ v.salt.map Tok.b ++ [Tok.box v.mbox]) from by
            rw [toksLen_append, toksLen_append, toksLen_flipAt, hVb, toksLen_mapB,
              toksLen_single_box, h2, h3]
            rfl,
          show NONCE_SIZE = v.mnonce.length from by rw [h4]]
        have := readBytesAt_exact (flipAt (v.vbytes.map Tok.b) p bit ++ v.salt.map Tok.b
            ++ [Tok.box v.mbox])
          (v.stime.map Tok.b ++ ((u32Bytes v.locLen).map Tok.b
            ++ (v.slotBytes.map Tok.b ++ v.heap)) ++ [Tok.mac v.fmac]) v.mnonce
        simpa [List.append_assoc] using this
    · have hP : toksLen (v.vbytes.map Tok.b ++ (v.salt.map Tok.b
          ++ (Tok.box v.mbox :: v.mnonce.map Tok.b))) = 96 := by
        rw [toksLen_append, toksLen_append, toksLen_mapB, toksLen_mapB, toksLen_cons,
          toksLen_mapB, h1, h2, h4]
        simp [Tok.size, h3, MASTER_KEY_SIZE, MAC_SIZE, SALT_SIZE, NONCE_SIZE]
      have hcr2 : v.content = (v.vbytes.map Tok.b ++ (v.salt.map Tok.b
          ++ (Tok.box v.mbox :: v.mnonce.map Tok.b)))
          ++ (v.stime.map Tok.b ++ ((u32Bytes v.locLen).map Tok.b
          ++ (v.slotBytes.map Tok.b ++ v.heap))) := by
        simp [FileView.content, FileView.hdrToks, List.append_assoc]
      have hQf : flipAt v.content p bit = (v.vbytes.map Tok.b ++ (v.salt.map Tok.b
          ++ (Tok.box v.mbox :: v.mnonce.map Tok.b)))
          ++ flipAt (v.stime.map Tok.b ++ ((u32Bytes v.locLen).map Tok.b
          ++ (v.slotBytes.map Tok.b ++ v.heap))) (p - 96) bit := by
        rw [hcr2, flipAt_append_right _ _ _ _ (by rw [hP]; exact hge96), hP]
      refine ⟨?_, ?_, ?_⟩
      · rw [hsplit, hQf, show (8 : Nat) = toksLen (v.vbytes.map Tok.b) from hVb.symm,
          show SALT_SIZE = v.salt.length from by rw [h2]]
        have := readBytesAt_exact (v.vbytes.map Tok.b)
          (Tok.box v.mbox :: v.mnonce.map Tok.b
            ++ (flipAt (v.stime.map Tok.b ++ ((u32Bytes v.locLen).map Tok.b
              ++ (v.slotBytes.map Tok.b ++ v.heap))) (p - 96) bit ++ [Tok.mac v.fmac]))
          v.salt
        simpa [List.append_assoc] using this
      · rw [hsplit, hQf,
          show (24 : Nat) = toksLen (v.vbytes.map Tok.b ++ v.salt.map Tok.b) from by
            rw [toksLen_append, toksLen_mapB, toksLen_mapB, h1, h2]
            rfl]
        have := readBoxAt_exact (v.vbytes.map Tok.b ++ v.salt.map Tok.b)
          (v.mnonce.map Tok.b
            ++ (flipAt (v.stime.map Tok.b ++ ((u32Bytes v.locLen).map Tok.b
              ++ (v.slotBytes.map Tok.b ++ v.heap))) (p - 96) bit ++ [Tok.mac v.fmac]))
          v.mbox
        simpa [List.append_assoc] using this
      · rw [hsplit, hQf,
          show (72 : Nat) = toksLen (v.vbytes.map Tok.b ++ v.salt.map Tok.b
            ++ [Tok.box v.mbox]) from by
            rw [toksLen_append, toksLen_append, toksLen_mapB, toksLen_mapB,
              toksLen_single_box, h1, h2, h3]
            rfl,
          show NONCE_SIZE = v.mnonce.length from by rw [h4]]
        have := readBytesAt_exact (v.vbytes.map Tok.b ++ v.salt.map Tok.b
            ++ [Tok.box v.mbox])
          (flipAt (v.stime.map Tok.b ++ ((u32Bytes v.locLen).map Tok.b
            ++ (v.slotBytes.map Tok.b ++ v.heap))) (p - 96) bit ++ [Tok.mac v.fmac])
          v.mnonce
        simpa [List.append_assoc] using this
  obtain ⟨hrS, hrB, hrN⟩ := hreads
  have hmacpos : toksLen (flipAt v.toks p bit) - HASH_SIZE
      = toksLen (flipAt v.content p bit) := by
    rw [hsplit, toksLen_append, toksLen_single_mac]
    simp [HASH_SIZE]
  have hne : FMac.mk master (flipAt v.content p bit) ≠ v.fmac := by
    rw [hfmac]
    intro h
    have hmsg : flipAt v.content p bit = v.content := by
      injection h
    exact flipAt_ne v.content p bit hp hmsg
  unfold open_vault
  rw [show HEADER_SIZE - NONCE_SIZE - 12 = (72 : Nat) from rfl, hrS, hrB, hrN]
  dsimp only
  rw [hmbox]
  dsimp only [secretbox_open]
  rw [if_pos (And.intro rfl rfl)]
  dsimp only
  rw [hmacpos, hsplit, readMacAt_exact, takeBytes_exact]
  dsimp only
  rw [if_pos hne]

/-! ## Lemmas: the trailing file hash after each mutation -/

theorem macClosed_internal_append_key (st : VState) (ty : Nat) (key value : List Nat)
    (m_time len : Nat) (nonce : List Nat) (st' : VState)
    (h : internal_append_key st ty key value m_time len nonce = (VE_SUCCESS, st')) :
    macClosed st.info.decrypted_master st'.file := by
  unfold internal_append_key at h
  split at h
  · simp [VE_IOERR, VE_SUCCESS] at h
  · split at h
    · simp [VE_NOSPACE, VE_SUCCESS] at h
    · simp only [Prod.mk.injEq] at h
      obtain ⟨-, h2⟩ := h
      subst h2
      exact ⟨_, rfl⟩

theorem macClosed_internal_append_encrypted (st : VState) (ty : Nat) (key : List Nat)
    (entry : List Tok) (len m_time : Nat) (st' : VState)
    (h : internal_append_encrypted st ty key entry len m_time = (VE_SUCCESS, st')) :
    macClosed st.info.decrypted_master st'.file := by
  unfold internal_append_encrypted at h
  split at h
  · simp [VE_IOERR, VE_SUCCESS] at h
  · split at h
    · simp [VE_NOSPACE, VE_SUCCESS] at h
    · simp only [Prod.mk.injEq] at h
      obtain ⟨-, h2⟩ := h
      subst h2
      exact ⟨_, rfl⟩

theorem append_key_master (st : VState) (ty : Nat) (key value : List Nat)
    (m_time len : Nat) (nonce : List Nat) :
    (internal_append_key st ty key value m_time len nonce).2.info.decrypted_master
      = st.info.decrypted_master := by
  unfold internal_append_key
  repeat' (first | split | dsimp only)
  all_goals rfl

theorem append_encrypted_master (st : VState) (ty : Nat) (key : List Nat)
    (entry : List Tok) (len m_time : Nat) :
    (internal_append_encrypted st ty key entry len m_time).2.info.decrypted_master
      = st.info.decrypted_master := by
  unfold internal_append_encrypted
  repeat' (first | split | dsimp only)
  all_goals rfl

theorem condense_master (s : VState) :
    (internal_condense_file s).2.info.decrypted_master
      = s.info.decrypted_master := by
  unfold internal_condense_file
  repeat' (first | split | dsimp only)
  all_goals rfl

theorem delete_key_master (st : VState) (key : List Nat) :
    (delete_key st key).2.info.decrypted_master = st.info.decrypted_master := by
  unfold delete_key
  repeat' (first | split | dsimp only)
  all_goals rfl

theorem macClosed_add_key (st : VState) (ty : Nat) (key value : List Nat)
    (m_time len : Nat) (n1 n2 : List Nat) (st' : VState)
    (h : add_key st ty key value m_time len n1 n2 = (VE_SUCCESS, st')) :
    macClosed st.info.decrypted_master st'.file := by
  unfold add_key at h
  split at h
  · simp [VE_PARAMERR, VE_SUCCESS] at h
  · split at h
    · simp [VE_VCLOSE, VE_SUCCESS] at h
    · split at h
      · simp [VE_KEYEXIST, VE_SUCCESS] at h
      · dsimp only at h
        split at h
        · have hm := macClosed_internal_append_key _ ty key value m_time len n2 st' h
          rw [condense_master, append_key_master] at hm
          exact hm
        · exact macClosed_internal_append_key _ ty key value m_time len n1 st' h

theorem macClosed_delete_key (st : VState) (key : List Nat) (st' : VState)
    (h : delete_key st key = (VE_SUCCESS, st')) :
    macClosed st.info.decrypted_master st'.file := by
  unfold delete_key at h
  split at h
  · simp [VE_PARAMERR, VE_SUCCESS] at h
  · split at h
    · simp [VE_VCLOSE, VE_SUCCESS] at h
    · split at h
      · simp [VE_KEYEXIST, VE_SUCCESS] at h
      · split at h
        · simp [VE_IOERR, VE_SUCCESS] at h
        · simp only [Prod.mk.injEq] at h
          obtain ⟨-, h2⟩ := h
          subst h2
          exact ⟨_, rfl⟩

theorem macClosed_update_key (st : VState) (ty : Nat) (key value : List Nat)
    (m_time len : Nat) (n1 n2 : List Nat) (st' : VState)
    (h : update_key st ty key value m_time len n1 n2 = (VE_SUCCESS, st')) :
    macClosed st.info.decrypted_master st'.file := by
  unfold update_key at h
  split at h
  · simp [VE_PARAMERR, VE_SUCCESS] at h
  · dsimp only at h
    split at h
    · next hguard =>
      exact absurd (congrArg Prod.fst h) hguard
    · have hm := macClosed_add_key _ ty key value m_time len n1 n2 st' h
      rw [delete_key_master] at hm
      exact hm

theorem macClosed_add_encrypted_value (st : VState) (key : List Nat)
    (entry : List Tok) (len ty m_time : Nat) (st' : VState)
    (h : add_encrypted_value st key entry len ty m_time = (VE_SUCCESS, st')) :
    macClosed st.info.decrypted_master st'.file := by
  unfold add_encrypted_value at h
  split at h
  · simp [VE_PARAMERR, VE_SUCCESS] at h
  · split at h
    · simp [VE_VCLOSE, VE_SUCCESS] at h
    · split at h
      · simp [VE_KEYEXIST, VE_SUCCESS] at h
      · split at h
        · dsimp only at h
          split at h
          · simp [VE_FILE, VE_SUCCESS] at h
          · split at h
            · have hm := macClosed_internal_append_encrypted _ ty key entry len m_time st' h
              rw [condense_master, append_encrypted_master] at hm
              exact hm
            · exact macClosed_internal_append_encrypted st ty key entry len m_time st' h
        · simp [VE_FILE, VE_SUCCESS] at h

theorem macClosed_condense (s : VState) (st' : VState)
    (h : internal_condense_file s = (VE_SUCCESS, st')) :
    macClosed s.info.decrypted_master st'.file := by
  unfold internal_condense_file at h
  split at h
  · simp [VE_VCLOSE, VE_SUCCESS] at h
  · dsimp only at h
    split at h
    · simp [VE_IOERR, VE_SUCCESS] at h
    · simp only [Prod.mk.injEq] at h
      obtain ⟨-, h2⟩ := h
      subst h2
      exact ⟨_, rfl⟩

theorem macClosed_set_last_server_time (info : VaultInfo) (v : FileView) (hwf : v.WF)
    (hopen : info.is_open = true) (ts : Nat) :
    (set_last_server_time ⟨info, v.toks⟩ ts).1 = VE_SUCCESS
    ∧ macClosed info.decrypted_master
        (set_last_server_time ⟨info, v.toks⟩ ts).2.file := by
  obtain ⟨h1, h2, h3, h4, h5, h6, h7⟩ := hwf
  have hP : toksLen (v.vbytes.map Tok.b ++ (v.salt.map Tok.b
      ++ (Tok.box v.mbox :: v.mnonce.map Tok.b))) = 96 := by
    rw [toksLen_append, toksLen_append, toksLen_mapB, toksLen_mapB, toksLen_cons,
      toksLen_mapB, h1, h2, h4]
    simp [Tok.size, h3, MASTER_KEY_SIZE, MAC_SIZE, SALT_SIZE, NONCE_SIZE]
  have hTb : toksLen (v.stime.map Tok.b) = 8 := by rw [toksLen_mapB, h5]
  have hshape : v.toks = (v.vbytes.map Tok.b ++ (v.salt.map Tok.b
      ++ (Tok.box v.mbox :: v.mnonce.map Tok.b)))
      ++ (v.stime.map Tok.b ++ (((u32Bytes v.locLen).map Tok.b
      ++ (v.slotBytes.map Tok.b ++ v.heap)) ++ [Tok.mac v.fmac])) := by
    simp [FileView.toks, FileView.content, FileView.hdrToks, List.append_assoc]
  have hnew : toksLen ((u64Bytes ts).map Tok.b) = 8 := by
    rw [toksLen_mapB, u64Bytes_length]
  have hf1 : writeAt v.toks (HEADER_SIZE - 12) ((u64Bytes ts).map Tok.b)
      = ((v.vbytes.map Tok.b ++ (v.salt.map Tok.b
          ++ (Tok.box v.mbox :: v.mnonce.map Tok.b)))
         ++ ((u64Bytes ts).map Tok.b ++ ((u32Bytes v.locLen).map Tok.b
          ++ (v.slotBytes.map Tok.b ++ v.heap))))
        ++ [Tok.mac v.fmac] := by
    rw [writeAt, show HEADER_SIZE - 12 = (96 : Nat) from rfl, hshape,
      show (96 : Nat) = toksLen (v.vbytes.map Tok.b ++ (v.salt.map Tok.b
        ++ (Tok.box v.mbox :: v.mnonce.map Tok.b))) from hP.symm,
      takeBytes_exact, dropBytes_exact, hnew,
      show (8 : Nat) = toksLen (v.stime.map Tok.b) from hTb.symm, dropBytes_exact]
    simp [List.append_assoc]
  set C1 := (v.vbytes.map Tok.b ++ (v.salt.map Tok.b
      ++ (Tok.box v.mbox :: v.mnonce.map Tok.b)))
      ++ ((u64Bytes ts).map Tok.b ++ ((u32Bytes v.locLen).map Tok.b
      ++ (v.slotBytes.map Tok.b ++ v.heap))) with hC1
  have hl1 : toksLen (C1 ++ [Tok.mac v.fmac]) - HASH_SIZE = toksLen C1 := by
    rw [toksLen_append, toksLen_single_mac]
    simp [HASH_SIZE]
  have hres : set_last_server_time ⟨info, v.toks⟩ ts
      = (VE_SUCCESS, ⟨info, C1 ++ [Tok.mac (FMac.mk info.decrypted_master C1)]⟩) := by
    unfold set_last_server_time
    dsimp only
    rw [if_neg (fun hx => hx hopen)]
    rw [hf1, hl1, takeBytes_exact,
      writeAt_end_replace _ _ _ (by simp [toksLen_single_mac])]
  refine ⟨?_, ?_⟩
  · rw [hres]
  · rw [hres]
    exact ⟨C1, rfl⟩

theorem macClosed_change_password (info : VaultInfo) (v : FileView) (hwf : v.WF)
    (hopen : info.is_open = true) (old_pw new_pw salt2 nonce2 : List Nat)
    (hol : old_pw.length ≤ MAX_PASS_SIZE) (hnewl : new_pw.length ≤ MAX_PASS_SIZE)
    (hmbox : v.mbox = Box.seal (pwhash old_pw v.salt) v.mnonce info.decrypted_master)
    (hs2 : salt2.length = SALT_SIZE) (hn2 : nonce2.length = NONCE_SIZE)
    (hml : info.decrypted_master.length = MASTER_KEY_SIZE) :
    (change_password ⟨info, v.toks⟩ old_pw new_pw salt2 nonce2).1 = VE_SUCCESS
    ∧ macClosed info.decrypted_master
        (change_password ⟨info, v.toks⟩ old_pw new_pw salt2 nonce2).2.file := by
  obtain ⟨h1, h2, h3, h4, h5, h6, h7⟩ := hwf
  have hwf' : v.WF := ⟨h1, h2, h3, h4, h5, h6, h7⟩
  have hVb : toksLen (v.vbytes.map Tok.b) = 8 := by rw [toksLen_mapB, h1]
  have hO : toksLen (v.salt.map Tok.b ++ (Tok.box v.mbox :: v.mnonce.map Tok.b))
      = 88 := by
    rw [toksLen_append, toksLen_mapB, toksLen_cons, toksLen_mapB, h2, h4]
    simp [Tok.size, h3, MASTER_KEY_SIZE, MAC_SIZE, SALT_SIZE, NONCE_SIZE]
  have hN : toksLen (salt2.map Tok.b
      ++ [Tok.box (Box.seal (pwhash new_pw salt2) nonce2 info.decrypted_master)]
      ++ nonce2.map Tok.b) = 88 := by
    rw [toksLen_append, toksLen_append, toksLen_mapB, toksLen_mapB, hs2, hn2,
      toksLen_single_box]
    simp [Box.ptLen, hml, MASTER_KEY_SIZE, SALT_SIZE, NONCE_SIZE]
  have hshape : v.toks = v.vbytes.map Tok.b
      ++ ((v.salt.map Tok.b ++ (Tok.box v.mbox :: v.mnonce.map Tok.b))
        ++ (v.stime.map Tok.b ++ (((u32Bytes v.locLen).map Tok.b
          ++ (v.slotBytes.map Tok.b ++ v.heap)) ++ [Tok.mac v.fmac]))) := by
    simp [FileView.toks, FileView.content, FileView.hdrToks, List.append_assoc]
  have hf1 : writeAt v.toks 8 (salt2.map Tok.b
      ++ [Tok.box (Box.seal (pwhash new_pw salt2) nonce2 info.decrypted_master)]
      ++ nonce2.map Tok.b)
      = (v.vbytes.map Tok.b
        ++ ((salt2.map Tok.b
          ++ [Tok.box (Box.seal (pwhash new_pw salt2) nonce2 info.decrypted_master)]
          ++ nonce2.map Tok.b)
         ++ (v.stime.map Tok.b ++ ((u32Bytes v.locLen).map Tok.b
          ++ (v.slotBytes.map Tok.b ++ v.heap)))))
        ++ [Tok.mac v.fmac] := by
    rw [writeAt, hshape,
      show (8 : Nat) = toksLen (v.vbytes.map Tok.b) from hVb.symm,
      takeBytes_exact, dropBytes_exact, hN,
      show (88 : Nat) = toksLen (v.salt.map Tok.b
        ++ (Tok.box v.mbox :: v.mnonce.map Tok.b)) from hO.symm,
      dropBytes_exact]
    simp [List.append_assoc]
  set C1 := v.vbytes.map Tok.b
      ++ ((salt2.map Tok.b
        ++ [Tok.box (Box.seal (pwhash new_pw salt2) nonce2 info.decrypted_master)]
        ++ nonce2.map Tok.b)
       ++ (v.stime.map Tok.b ++ ((u32Bytes v.locLen).map Tok.b
        ++ (v.slotBytes.map Tok.b ++ v.heap)))) with hC1
  have hl1 : toksLen (C1 ++ [Tok.mac v.fmac]) - HASH_SIZE = toksLen C1 := by
    rw [toksLen_append, toksLen_single_mac]
    simp [HASH_SIZE]
  have hres : change_password ⟨info, v.toks⟩ old_pw new_pw salt2 nonce2
      = (VE_SUCCESS, ⟨{ info with derived_key := pwhash new_pw salt2 },
          C1 ++ [Tok.mac (FMac.mk info.decrypted_master C1)]⟩) := by
    unfold change_password
    rw [if_neg (by push_neg; exact ⟨hol, hnewl⟩)]
    dsimp only
    rw [if_neg (fun hx => hx hopen)]
    rw [show HEADER_SIZE - NONCE_SIZE - 12 = (72 : Nat) from rfl,
      view_read_salt v hwf', view_read_mbox v hwf', view_read_mnonce v hwf']
    dsimp only
    rw [hmbox]
    dsimp only [secretbox_open]
    rw [if_pos (And.intro rfl rfl)]
    dsimp only
    rw [if_neg (show ¬ info.decrypted_master ≠ info.decrypted_master from
      fun hx => hx rfl)]
    rw [hf1, hl1, takeBytes_exact,
      writeAt_end_replace _ _ _ (by simp [toksLen_single_mac])]
  refine ⟨?_, ?_⟩
  · rw [hres]
  · rw [hres]
    exact ⟨C1, rfl⟩

/-! ## Lemmas: what `delete_key` writes -/

/-- `delete_key` of a present key whose slot records an `ACTIVE` entry at
heap offset `fl` with an honestly laid-out record: the call succeeds, the
session keeps everything but the key-map entry, and the resulting file is,
byte for byte, the old file with the slot\'s state field rewritten to
`DELETED`, exactly the `len + MAC_SIZE` ciphertext+tag bytes replaced with
zeros (mtime, type, key, nonce and record-mac bytes untouched), and a fresh
trailing hash appended after the stale one. -/
theorem delete_key_view (info : VaultInfo) (v : FileView) (hwf : v.WF)
    (hopen : info.is_open = true) (key value nonce : List Nat) (e : KeyInfoEntry)
    (i mt ty2 len fl : Nat) (hA hB : List Tok)
    (hkl : key.length ≤ BOX_KEY_SIZE - 1)
    (hmap : get_info info.key_info key = some e)
    (hloc : e.inode_loc = HEADER_SIZE + i * LOC_SIZE)
    (hi : i < v.locLen)
    (hslotB : v.slotB i = slotBytes4 STATE_ACTIVE fl key.length len)
    (hfl : fl = 108 + 16 * v.locLen + toksLen hA)
    (hheap : v.heap = hA
      ++ recordToks info.decrypted_master ty2 key value mt len nonce ++ hB)
    (hvlen : value.length = len) (hnl : nonce.length = NONCE_SIZE)
    (hfl32 : 108 + 16 * v.locLen + toksLen v.heap < 4294967296)
    (hlen32 : len < 4294967296) :
    (delete_key ⟨info, v.toks⟩ key).1 = VE_SUCCESS
    ∧ (delete_key ⟨info, v.toks⟩ key).2.info
        = { info with key_info := delete_entry info.key_info key }
    ∧ (∃ D : List Tok,
        (delete_key ⟨info, v.toks⟩ key).2.file
          = D ++ [Tok.mac (FMac.mk info.decrypted_master D)]
        ∧ D = v.hdrToks ++ (u32Bytes v.locLen).map Tok.b
            ++ (v.slotBytes.take (LOC_SIZE * i)
                ++ slotBytes4 STATE_DELETED fl key.length len
                ++ v.slotBytes.drop (LOC_SIZE * i + LOC_SIZE)).map Tok.b
            ++ hA ++ (u64Bytes mt).map Tok.b ++ [Tok.b ty2] ++ key.map Tok.b
            ++ (List.replicate (len + MAC_SIZE) 0).map Tok.b ++ nonce.map Tok.b
            ++ [Tok.mac (FMac.mk info.decrypted_master ((u64Bytes mt).map Tok.b
                ++ [Tok.b ty2] ++ key.map Tok.b
                ++ [Tok.box (Box.seal info.decrypted_master nonce (value.take len))]
                ++ nonce.map Tok.b))]
            ++ hB ++ [Tok.mac v.fmac])
    ∧ readSlotAt (delete_key ⟨info, v.toks⟩ key).2.file (HEADER_SIZE + i * LOC_SIZE)
        = some (STATE_DELETED, fl, key.length, len)
    ∧ readBytesAt (delete_key ⟨info, v.toks⟩ key).2.file
        (fl + ENTRY_HEADER_SIZE + key.length) (len + MAC_SIZE)
        = some (List.replicate (len + MAC_SIZE) 0) := by
  obtain ⟨h1, h2, h3, h4, h5, h6, h7⟩ := hwf
  have hwf' : v.WF := ⟨h1, h2, h3, h4, h5, h6, h7⟩
  have hh := v.hdrToks_len hwf'
  have hAle : toksLen hA ≤ toksLen v.heap := by
    rw [hheap, toksLen_append, toksLen_append]
    omega
  have hfl32' : fl < 4294967296 := by
    rw [hfl]
    omega
  have hkl32 : key.length < 4294967296 := by
    have hx := hkl
    simp [BOX_KEY_SIZE] at hx
    omega
  have htk : (v.slotBytes.take (LOC_SIZE * i)).length = LOC_SIZE * i := by
    simp [h6, LOC_SIZE]
    omega
  have hsb0 : v.slotBytes = v.slotBytes.take (LOC_SIZE * i) ++ (v.slotB i
      ++ v.slotBytes.drop (LOC_SIZE * i + LOC_SIZE)) := by
    rw [FileView.slotB, ← List.drop_drop, List.take_append_drop,
      List.take_append_drop]
  rw [hslotB] at hsb0
  set bx := Box.seal info.decrypted_master nonce (value.take len) with hbx
  set rm := FMac.mk info.decrypted_master ((u64Bytes mt).map Tok.b ++ [Tok.b ty2]
    ++ key.map Tok.b ++ [Tok.box bx] ++ nonce.map Tok.b) with hrm
  have hbsz : (Tok.box bx).size = len + MAC_SIZE := by
    simp [Tok.size, hbx, Box.ptLen, hvlen]
  have hrs0 : readSlotAt v.toks (HEADER_SIZE + i * LOC_SIZE)
      = some (STATE_ACTIVE, fl, key.length, len) := by
    have hv := view_read_slot v hwf' i hi
    rw [readSlot] at hv
    rw [hv, hslotB, parseSlotBytes_slotBytes4 _ _ _ _ (by decide) hfl32'
      (by omega) hlen32]
  have hshape : v.toks = (v.hdrToks ++ (u32Bytes v.locLen).map Tok.b
      ++ (v.slotBytes.take (LOC_SIZE * i)).map Tok.b)
      ++ (u32Bytes STATE_ACTIVE).map Tok.b
      ++ ((u32Bytes fl ++ u32Bytes key.length ++ u32Bytes len).map Tok.b
        ++ ((v.slotBytes.drop (LOC_SIZE * i + LOC_SIZE)).map Tok.b
        ++ (hA ++ ((u64Bytes mt).map Tok.b ++ ([Tok.b ty2] ++ (key.map Tok.b
          ++ (Tok.box bx :: (nonce.map Tok.b
          ++ (Tok.mac rm :: (hB ++ [Tok.mac v.fmac])))))))))) := by
    conv_lhs => rw [FileView.toks, FileView.content, hsb0, hheap]
    simp [recordToks, slotBytes4, hbx, hrm, List.append_assoc]
  set A1 := v.hdrToks ++ (u32Bytes v.locLen).map Tok.b
      ++ (v.slotBytes.take (LOC_SIZE * i)).map Tok.b with hA1
  have hpos1 : HEADER_SIZE + i * LOC_SIZE = toksLen A1 := by
    rw [hA1, toksLen_append, toksLen_append, hh, toksLen_mapB, toksLen_mapB,
      u32Bytes_length, htk]
    simp [HEADER_SIZE, LOC_SIZE]
    omega
  have hf1 : writeAt v.toks (HEADER_SIZE + i * LOC_SIZE)
      ((u32Bytes STATE_DELETED).map Tok.b)
      = A1 ++ (u32Bytes STATE_DELETED).map Tok.b
        ++ ((u32Bytes fl ++ u32Bytes key.length ++ u32Bytes len).map Tok.b
          ++ ((v.slotBytes.drop (LOC_SIZE * i + LOC_SIZE)).map Tok.b
          ++ (hA ++ ((u64Bytes mt).map Tok.b ++ ([Tok.b ty2] ++ (key.map Tok.b
            ++ (Tok.box bx :: (nonce.map Tok.b
            ++ (Tok.mac rm :: (hB ++ [Tok.mac v.fmac])))))))))) := by
    conv_lhs => rw [hshape, hpos1]
    exact writeAt_exact _ _ _ _ (by rw [toksLen_mapB, toksLen_mapB,
      u32Bytes_length, u32Bytes_length])
  set A2 := A1 ++ ((u32Bytes STATE_DELETED).map Tok.b
      ++ ((u32Bytes fl ++ u32Bytes key.length ++ u32Bytes len).map Tok.b
      ++ ((v.slotBytes.drop (LOC_SIZE * i + LOC_SIZE)).map Tok.b
      ++ (hA ++ ((u64Bytes mt).map Tok.b ++ ([Tok.b ty2] ++ key.map Tok.b)))))) with hA2
  have hA1len : toksLen A1 = 108 + 16 * i := by
    rw [← hpos1]
    simp [HEADER_SIZE, LOC_SIZE]
    omega
  have hdroplen : toksLen ((v.slotBytes.drop (LOC_SIZE * i + LOC_SIZE)).map Tok.b)
      = LOC_SIZE * v.locLen - LOC_SIZE * i - LOC_SIZE := by
    rw [toksLen_mapB, List.length_drop, h6]
    omega
  have hu12 : toksLen ((u32Bytes fl ++ u32Bytes key.length ++ u32Bytes len).map Tok.b)
      = 12 := by
    rw [toksLen_mapB]
    simp [u32Bytes_length]
  have hpos2 : fl + ENTRY_HEADER_SIZE + key.length = toksLen A2 := by
    rw [hA2, toksLen_append, hA1len, toksLen_append, toksLen_mapB, u32Bytes_length,
      toksLen_append, hu12, toksLen_append, hdroplen, toksLen_append, toksLen_append,
      toksLen_mapB, u64Bytes_length, toksLen_append, toksLen_single_b, toksLen_mapB,
      hfl]
    simp [ENTRY_HEADER_SIZE, LOC_SIZE]
    omega
  have hlenZ : toksLen [Tok.box bx]
      = toksLen ((List.replicate (len + MAC_SIZE) 0).map Tok.b) := by
    rw [toksLen_cons, toksLen_nil, hbsz, toksLen_mapB, List.length_replicate]
    omega
  have hshape2 : A1 ++ (u32Bytes STATE_DELETED).map Tok.b
      ++ ((u32Bytes fl ++ u32Bytes key.length ++ u32Bytes len).map Tok.b
        ++ ((v.slotBytes.drop (LOC_SIZE * i + LOC_SIZE)).map Tok.b
        ++ (hA ++ ((u64Bytes mt).map Tok.b ++ ([Tok.b ty2] ++ (key.map Tok.b
          ++ (Tok.box bx :: (nonce.map Tok.b
          ++ (Tok.mac rm :: (hB ++ [Tok.mac v.fmac]))))))))))
      = A2 ++ [Tok.box bx]
        ++ (nonce.map Tok.b ++ (Tok.mac rm :: (hB ++ [Tok.mac v.fmac]))) := by
    rw [hA2]
    simp [List.append_assoc]
  have hf2 : writeAt (A1 ++ (u32Bytes STATE_DELETED).map Tok.b
      ++ ((u32Bytes fl ++ u32Bytes key.length ++ u32Bytes len).map Tok.b
        ++ ((v.slotBytes.drop (LOC_SIZE * i + LOC_SIZE)).map Tok.b
        ++ (hA ++ ((u64Bytes mt).map Tok.b ++ ([Tok.b ty2] ++ (key.map Tok.b
          ++ (Tok.box bx :: (nonce.map Tok.b
          ++ (Tok.mac rm :: (hB ++ [Tok.mac v.fmac]))))))))))) 
      (fl + ENTRY_HEADER_SIZE + key.length)
      ((List.replicate (len + MAC_SIZE) 0).map Tok.b)
      = A2 ++ (List.replicate (len + MAC_SIZE) 0).map Tok.b
        ++ (nonce.map Tok.b ++ (Tok.mac rm :: (hB ++ [Tok.mac v.fmac]))) := by
    conv_lhs => rw [hshape2, hpos2]
    exact writeAt_exact _ _ _ _ hlenZ
  set D0 := A2 ++ (List.replicate (len + MAC_SIZE) 0).map Tok.b
      ++ (nonce.map Tok.b ++ (Tok.mac rm :: (hB ++ [Tok.mac v.fmac]))) with hD0
  have hres : delete_key ⟨info, v.toks⟩ key
      = (VE_SUCCESS, ⟨{ info with key_info := delete_entry info.key_info key },
          D0 ++ [Tok.mac (FMac.mk info.decrypted_master D0)]⟩) := by
    unfold delete_key
    rw [if_neg (show ¬ key.length > BOX_KEY_SIZE - 1 from by push_neg; exact hkl)]
    dsimp only
    rw [if_neg (fun hx => hx hopen), hmap]
    dsimp only
    rw [hloc, hrs0]
    dsimp only
    rw [hf1, hf2]
  refine ⟨?_, ?_, ⟨D0, ?_, ?_⟩, ?_, ?_⟩
  · rw [hres]
  · rw [hres]
  · rw [hres]
  · rw [hD0, hA2, hA1]
    simp [slotBytes4, hbx, hrm, List.append_assoc]
  · rw [hres]
    dsimp only
    have hsl : D0 ++ [Tok.mac (FMac.mk info.decrypted_master D0)]
        = A1 ++ (slotBytes4 STATE_DELETED fl key.length len).map Tok.b
          ++ ((v.slotBytes.drop (LOC_SIZE * i + LOC_SIZE)).map Tok.b
            ++ (hA ++ ((u64Bytes mt).map Tok.b ++ ([Tok.b ty2] ++ (key.map Tok.b
              ++ ((List.replicate (len + MAC_SIZE) 0).map Tok.b ++ (nonce.map Tok.b
              ++ (Tok.mac rm :: (hB ++ ([Tok.mac v.fmac]
              ++ [Tok.mac (FMac.mk info.decrypted_master D0)])))))))))) := by
      rw [hD0, hA2]
      simp [slotBytes4, List.append_assoc]
    rw [hsl, hpos1]
    rw [readSlotAt, show LOC_SIZE = (slotBytes4 STATE_DELETED fl key.length len).length
      from (slotBytes4_length _ _ _ _).symm, readBytesAt_exact]
    dsimp only
    rw [parseSlotBytes_slotBytes4 _ _ _ _ (by decide) hfl32' (by omega) hlen32]
  · rw [hres]
    dsimp only
    have hzr : D0 ++ [Tok.mac (FMac.mk info.decrypted_master D0)]
        = A2 ++ (List.replicate (len + MAC_SIZE) 0).map Tok.b
          ++ (nonce.map Tok.b ++ (Tok.mac rm :: (hB ++ ([Tok.mac v.fmac]
            ++ [Tok.mac (FMac.mk info.decrypted_master D0)])))) := by
      rw [hD0]
      simp [List.append_assoc]
    rw [hzr, hpos2]
    have hre := readBytesAt_exact A2 (nonce.map Tok.b ++ (Tok.mac rm :: (hB
      ++ ([Tok.mac v.fmac] ++ [Tok.mac (FMac.mk info.decrypted_master D0)]))))
      (List.replicate (len + MAC_SIZE) 0)
    simpa using hre

/-! ## Claims -/

/-- C1: filling all `INITIAL_SIZE = 4` slots and adding a fifth key does make
the public add succeed (no `NOSPACE`) and doubles `slot_count` — but the
compaction pass destroys the four existing records: it leaves their slots
pointing at their old absolute offsets (now inside the doubled slot table),
writes back a data region of `new_data_size = 0` bytes and truncates, so the
rebuilt key index no longer contains `k0` and `open_key(k0)` fails instead of
returning the original plaintext.  This evaluates the code at the failing
input of scenario S3. -/
theorem C1_grow_destroys_existing_keys :
    firstFree scSt4.file 4 = none
    ∧ scR5.1 = VE_SUCCESS ∧ scR5.1 ≠ VE_NOSPACE
    ∧ readLocLen scR5.2.file = some 8
    ∧ get_info scSt4.info.key_info (scKey 0) ≠ none
    ∧ get_info scR5.2.info.key_info (scKey 0) = none
    ∧ (open_key scR5.2 (scKey 0)).1 = VE_KEYEXIST
    ∧ (open_key scR5.2 (scKey 0)).1 ≠ VE_SUCCESS
    ∧ readSlot scR5.2.file 0 = some (STATE_ACTIVE, 172, 2, 2)
    ∧ toksLen scR5.2.file = 353 := by
  set_option maxRecDepth 10000 in decide

/-- C2, counterexample: on a freshly created vault (which the correct
password opens), flipping bit 0 of byte 8 — the first salt byte, inside
`file[0 .. len-32]` — makes the next open with the correct password return
`WRONGPASS`, not `FILE`: `open_vault` decrypts the master envelope with the
salt-derived key before it ever checks the file hash. -/
theorem C2_counterexample :
    (open_vault scPw scSt0.file).1 = VE_SUCCESS
    ∧ 8 < toksLen scSt0.file - HASH_SIZE
    ∧ (open_vault scPw (flipAt scSt0.file 8 0)).1 = VE_WRONGPASS
    ∧ (open_vault scPw (flipAt scSt0.file 8 0)).1 ≠ VE_FILE := by
  set_option maxRecDepth 4000 in decide

/-- C3, counterexample: after add("k0","v0"), open_key("k0"),
delete("k0"), the key is absent and a fresh add of ("k0", [99,99]) with
valid sizes succeeds — but `open_key("k0")` then hits the stale hot-key
cache (never invalidated by the delete) and `place_open_value` returns the
old bytes "v0", not the bytes that were just added. -/
theorem C3_counterexample :
    get_info scStDel.info.key_info (scKey 0) = none
    ∧ ([99, 99] : List Nat).length ≤ DATA_SIZE
    ∧ (scKey 0).length ≤ BOX_KEY_SIZE - 1
    ∧ scReAdd.1 = VE_SUCCESS
    ∧ (open_key scReAdd.2 (scKey 0)).1 = VE_SUCCESS
    ∧ (place_open_value (open_key scReAdd.2 (scKey 0)).2).2.2.1 = [118, 48]
    ∧ [118, 48] ≠ [99, 99] := by
  set_option maxRecDepth 4000 in decide

/-- C4, counterexample: with "k0" decrypted in the hot-key cache,
`delete_key("k0")` succeeds but leaves `current_box` untouched, and
`place_open_value` afterwards still returns the previously cached key's
value — the cache is not invalidated by a delete of the cached key. -/
theorem C4_counterexample :
    scStOpen.info.current_box.key = scKey 0
    ∧ scStOpen.info.current_box.value = [118, 48]
    ∧ (delete_key scStOpen (scKey 0)).1 = VE_SUCCESS
    ∧ scStDel.info.current_box = scStOpen.info.current_box
    ∧ (place_open_value scStDel).1 = VE_SUCCESS
    ∧ (place_open_value scStDel).2.2.1 = [118, 48] := by
  set_option maxRecDepth 4000 in decide

/-- C5, counterexample: immediately after the successful public
`create_vault` (INITIAL_SIZE = 4) the file is 204 bytes, but the claimed
formula `64 + 4 + 16*slot_count + sum of record sizes + 32` gives 164: the
header before `slot_count` is 104 bytes, not 64. -/
theorem C5_counterexample :
    (create_vault scPw scMaster scSalt scNonce0).1 = VE_SUCCESS
    ∧ toksLen scSt0.file = 204
    ∧ claimed_file_size scSt0.file = 164
    ∧ toksLen scSt0.file ≠ claimed_file_size scSt0.file := by
  set_option maxRecDepth 4000 in decide

/-- C8: the claim that every public operation relocks the guarded session
memory on every error return path is contradicted by `create_vault`: when
`open(2)` fails with `EEXIST` (the vault file already exists) the function
returns `VE_EXIST` with the session memory still read-write — the
`sodium_mprotect_noaccess` call is missing on the open/flock failure paths
(vault.c 781-795), although every other error path (and the macros
`WRITE`/`READ`/`LSEEK`) does relock. -/
theorem C8_unlocked_error_path :
    create_vault_mem ⟨true, false, true, false, false, false⟩ = (VE_EXIST, MemProt.readwrite)
    ∧ create_vault_mem ⟨true, false, false, false, false, true⟩ = (VE_SYSCALL, MemProt.readwrite)
    ∧ MemProt.readwrite ≠ MemProt.noaccess
    ∧ create_vault_mem ⟨true, true, false, false, false, false⟩ = (VE_VOPEN, MemProt.noaccess) := by
  decide

/-- C10: `num_vault_keys` and `last_modified_time` report failures in-band:
on a closed vault `num_vault_keys` returns `VE_VCLOSE = 6`, exactly what it
returns for an open vault holding six keys; `last_modified_time` returns
`VE_KEYEXIST = 10` for an absent key, exactly what it returns for a key
whose stored mtime is the genuine timestamp 10. -/
theorem C10_inband_error_codes :
    num_vault_keys c10closed = VE_VCLOSE ∧ VE_VCLOSE = 6
    ∧ num_vault_keys c10open6 = 6
    ∧ num_vault_keys c10closed = num_vault_keys c10open6
    ∧ last_modified_time c10openT [9] = VE_KEYEXIST ∧ VE_KEYEXIST = 10
    ∧ last_modified_time c10openT [5] = 10
    ∧ last_modified_time c10openT [9] = last_modified_time c10openT [5] := by
  decide

/-- C9, counterexample: on an open vault `get_header` succeeds and copies
`HEADER_SIZE - 4 = 104` bytes — the region `[0, 104)` up to but not
including `slot_count` — not the 60 bytes the claim states. -/
theorem C9_counterexample :
    (get_header scSt1).1 = VE_SUCCESS
    ∧ toksLen (get_header scSt1).2 = 104
    ∧ toksLen (get_header scSt1).2 ≠ 60 := by
  set_option maxRecDepth 4000 in decide

/-- C3 (amended): on every open vault with a non-empty slot table, for
every (key, value, type, mtime) within the size limits where the key is
absent from the key map and — the correction — the hot-key cache does not
currently hold `key`, the public `add_key` succeeds (directly when a free
slot exists, through the compaction pass and a retried append when the
table is full), `open_key` on the key succeeds, `place_open_value` returns
exactly the value bytes, the added length and the added type, and
`last_modified_time` returns the added mtime.  (The unamended claim,
without the cache-miss hypothesis, is refuted by the stale-cache
counterexample.) -/
theorem C3_roundtrip_on_cache_miss (info : VaultInfo) (v : FileView) (hwf : v.WF)
    (ty : Nat) (key value : List Nat) (m_time len : Nat) (nonce1 nonce2 : List Nat)
    (hopen : info.is_open = true)
    (habsent : get_info info.key_info key = none)
    (hcache : info.current_box.key ≠ key)
    (hkl : key.length ≤ BOX_KEY_SIZE - 1) (hlen : len ≤ DATA_SIZE)
    (hvlen : value.length = len)
    (hnl1 : nonce1.length = NONCE_SIZE) (hnl2 : nonce2.length = NONCE_SIZE)
    (hL : 0 < v.locLen)
    (hfl32 : 108 + 16 * v.locLen + toksLen v.heap < 4294967296)
    (hcfl32 : toksLen (internal_condense_file ⟨info, v.toks⟩).2.file < 4294967296)
    (hlen32 : len < 4294967296) :
    (add_key ⟨info, v.toks⟩ ty key value m_time len nonce1 nonce2).1 = VE_SUCCESS
    ∧ (open_key (add_key ⟨info, v.toks⟩ ty key value m_time len nonce1 nonce2).2 key).1
        = VE_SUCCESS
    ∧ (place_open_value
        (open_key (add_key ⟨info, v.toks⟩ ty key value m_time len nonce1 nonce2).2 key).2).1
        = VE_SUCCESS
    ∧ (place_open_value
        (open_key (add_key ⟨info, v.toks⟩ ty key value m_time len nonce1 nonce2).2 key).2).2.2.1
        = value
    ∧ (place_open_value
        (open_key (add_key ⟨info, v.toks⟩ ty key value m_time len nonce1 nonce2).2 key).2).2.2.2.1
        = len
    ∧ (place_open_value
        (open_key (add_key ⟨info, v.toks⟩ ty key value m_time len nonce1 nonce2).2 key).2).2.2.2.2
        = ty
    ∧ last_modified_time
        (open_key (add_key ⟨info, v.toks⟩ ty key value m_time len nonce1 nonce2).2 key).2 key
        = m_time := by
  have hg1 : ¬ (len > DATA_SIZE ∨ key.length > BOX_KEY_SIZE - 1) := by
    push_neg
    exact ⟨hlen, hkl⟩
  suffices hs : ∃ st1 st2 : VState,
      add_key ⟨info, v.toks⟩ ty key value m_time len nonce1 nonce2 = (VE_SUCCESS, st1)
      ∧ open_key st1 key = (VE_SUCCESS, st2)
      ∧ place_open_value st2 = (VE_SUCCESS, st2, value, len, ty)
      ∧ last_modified_time st2 key = m_time by
    obtain ⟨st1, st2, e1, e2, e3, e4⟩ := hs
    refine ⟨?_, ?_, ?_, ?_, ?_, ?_, ?_⟩
    · rw [e1]
    · rw [e1]
      dsimp only
      rw [e2]
    · rw [e1]
      dsimp only
      rw [e2]
      dsimp only
      rw [e3]
    · rw [e1]
      dsimp only
      rw [e2]
      dsimp only
      rw [e3]
    · rw [e1]
      dsimp only
      rw [e2]
      dsimp only
      rw [e3]
    · rw [e1]
      dsimp only
      rw [e2]
      dsimp only
      rw [e3]
    · rw [e1]
      dsimp only
      rw [e2]
      dsimp only
      exact e4
  rcases hscan : firstFree v.toks v.locLen with _ | i
  · -- full table: NOSPACE, compaction, retried append
    obtain ⟨vc, hcond, hwfc, hl2, -, -, -, -, -, -, hslots⟩ :=
      internal_condense_file_view info v hwf hopen hfl32
    obtain ⟨valid, sb1, hval, hsb1len, hsbeq⟩ := hslots
    have hval2 : valid < vc.locLen := by
      rw [hl2]
      omega
    have hslot0 : slotState vc.toks valid = some 0 := by
      have hrs := view_read_slot vc hwfc valid hval2
      have hslotB : vc.slotB valid = List.replicate LOC_SIZE 0 := by
        rw [FileView.slotB, hsbeq,
          show LOC_SIZE * valid = sb1.length from hsb1len.symm, List.drop_left]
        have hle : LOC_SIZE ≤ (v.locLen * 2 - valid) * LOC_SIZE :=
          Nat.le_mul_of_pos_left LOC_SIZE (by omega)
        rw [List.take_replicate, Nat.min_eq_left hle]
      rw [slotState, hrs, hslotB,
        show parseSlotBytes (List.replicate LOC_SIZE 0) = (0, 0, 0, 0) from by decide]
      rfl
    obtain ⟨j, hscanc⟩ := firstFree_isSome vc.toks vc.locLen valid hval2 hslot0
    have hsizec : 108 + 16 * vc.locLen + toksLen vc.heap < 4294967296 := by
      have ht := vc.toks_len hwfc
      rw [hcond] at hcfl32
      dsimp only at hcfl32
      omega
    obtain ⟨st1, st2, e1, e2, e3, e4⟩ := append_roundtrip
      { info with key_info := create_key_map vc.toks } vc hwfc ty key value m_time len
      nonce2 j hscanc hopen hcache hkl hvlen hnl2 hsizec hlen32
    refine ⟨st1, st2, ?_, e2, e3, e4⟩
    have hnos := append_key_nospace info v hwf ty key value m_time len nonce1 hscan
    unfold add_key
    rw [if_neg hg1]
    dsimp only
    rw [if_neg (show ¬ ¬ info.is_open = true from fun h => h hopen),
      if_neg (show ¬ (get_info info.key_info key).isSome = true from by simp [habsent]),
      hnos]
    dsimp only
    rw [if_pos (show VE_NOSPACE = VE_NOSPACE from rfl), hcond]
    dsimp only
    exact e1
  · -- a free slot exists: direct append
    obtain ⟨st1, st2, e1, e2, e3, e4⟩ := append_roundtrip info v hwf ty key value
      m_time len nonce1 i hscan hopen hcache hkl hvlen hnl1 hfl32 hlen32
    refine ⟨st1, st2, ?_, e2, e3, e4⟩
    unfold add_key
    rw [if_neg hg1]
    dsimp only
    rw [if_neg (show ¬ ¬ info.is_open = true from fun h => h hopen),
      if_neg (show ¬ (get_info info.key_info key).isSome = true from by simp [habsent]),
      e1]
    dsimp only
    rw [if_neg (show ¬ VE_SUCCESS = VE_NOSPACE from by decide)]

/-- Witness for the amended round-trip at a concrete fresh vault: adding
`[107] ↦ [118, 119]` (type 1, mtime 777) and reading it back returns
exactly those bytes, length 2, type 1 and mtime 777. -/
theorem C3_roundtrip_witness :
    (0 < c3v.locLen ∧ get_info c3info.key_info [107] = none
      ∧ c3info.current_box.key ≠ [107])
    ∧ ((add_key ⟨c3info, c3v.toks⟩ 1 [107] [118, 119] 777 2 (List.replicate 24 3)
          (List.replicate 24 4)).1 = VE_SUCCESS
      ∧ (open_key (add_key ⟨c3info, c3v.toks⟩ 1 [107] [118, 119] 777 2
            (List.replicate 24 3) (List.replicate 24 4)).2 [107]).1 = VE_SUCCESS
      ∧ (place_open_value (open_key (add_key ⟨c3info, c3v.toks⟩ 1 [107] [118, 119] 777 2
            (List.replicate 24 3) (List.replicate 24 4)).2 [107]).2).1 = VE_SUCCESS
      ∧ (place_open_value (open_key (add_key ⟨c3info, c3v.toks⟩ 1 [107] [118, 119] 777 2
            (List.replicate 24 3) (List.replicate 24 4)).2 [107]).2).2.2.1 = [118, 119]
      ∧ (place_open_value (open_key (add_key ⟨c3info, c3v.toks⟩ 1 [107] [118, 119] 777 2
            (List.replicate 24 3) (List.replicate 24 4)).2 [107]).2).2.2.2.1 = 2
      ∧ (place_open_value (open_key (add_key ⟨c3info, c3v.toks⟩ 1 [107] [118, 119] 777 2
            (List.replicate 24 3) (List.replicate 24 4)).2 [107]).2).2.2.2.2 = 1
      ∧ last_modified_time (open_key (add_key ⟨c3info, c3v.toks⟩ 1 [107] [118, 119] 777 2
            (List.replicate 24 3) (List.replicate 24 4)).2 [107]).2 [107] = 777) :=
  ⟨⟨by decide, by decide, by decide⟩,
   C3_roundtrip_on_cache_miss c3info c3v (by decide) 1 [107] [118, 119] 777 2
     (List.replicate 24 3) (List.replicate 24 4) rfl rfl (by decide) (by decide)
     (by decide) rfl (by decide) (by decide) (by decide) (by decide)
     (by set_option maxRecDepth 10000 in decide) (by decide)⟩

/-- C2 (amended): flipping a bit of `file[0 .. len-32]` is only detected as
`FILE` when it falls outside the password-envelope bytes `[8, 96)` (the
counterexample shows a flip inside the envelope is reported as `WRONGPASS`
instead, because `open_vault` opens the envelope before checking the file
hash); and flipping any bit inside an `ACTIVE` record's bytes makes
`open_key` on that record's key return `CRYPTOERR`, checked for every byte
of the record `[172, 257)` of scenario S1 and for every bit of one of its
ciphertext bytes. -/
theorem C2_tamper_detection (pw master : List Nat) (v : FileView) (hwf : v.WF)
    (hmbox : v.mbox = Box.seal (pwhash pw v.salt) v.mnonce master)
    (hfmac : v.fmac = FMac.mk master v.content)
    (p bit : Nat) (hp : p < toksLen v.content) (henv : p < 8 ∨ 96 ≤ p) :
    (open_vault pw (flipAt v.toks p bit)).1 = VE_FILE
    ∧ ((List.range 85).all (fun q =>
        decide ((open_key ⟨scSt1.info, flipAt scSt1.file (172 + q) 3⟩ (scKey 0)).1
          = VE_CRYPTOERR))) = true
    ∧ ((List.range 8).all (fun b =>
        decide ((open_key ⟨scSt1.info, flipAt scSt1.file 183 b⟩ (scKey 0)).1
          = VE_CRYPTOERR))) = true := by
  refine ⟨?_, ?_, ?_⟩
  · rw [open_vault_flip_FILE pw master v hwf hmbox hfmac p bit hp henv]
  · set_option maxRecDepth 10000 in decide
  · set_option maxRecDepth 10000 in decide

/-- Witness for the amended tamper detection: a flip at byte 100 (inside the
`last_server_time` field, outside the envelope) of a concrete honest vault
is reported as `FILE`. -/
theorem C2_tamper_witness :
    (100 < toksLen c2v.content ∧ ((100 : Nat) < 8 ∨ (96 : Nat) ≤ 100))
    ∧ ((open_vault scPw (flipAt c2v.toks 100 0)).1 = VE_FILE
      ∧ ((List.range 85).all (fun q =>
          decide ((open_key ⟨scSt1.info, flipAt scSt1.file (172 + q) 3⟩ (scKey 0)).1
            = VE_CRYPTOERR))) = true
      ∧ ((List.range 8).all (fun b =>
          decide ((open_key ⟨scSt1.info, flipAt scSt1.file 183 b⟩ (scKey 0)).1
            = VE_CRYPTOERR))) = true) :=
  ⟨⟨by set_option maxRecDepth 4000 in decide, by decide⟩,
   C2_tamper_detection scPw scMaster c2v (by decide) rfl rfl 100 0
     (by set_option maxRecDepth 4000 in decide) (by decide)⟩

/-- C4 (amended): only `close_vault` invalidates the hot-key cache — after a
close the cache is the zeroed box, `place_open_value` fails with `VCLOSE`
returning no bytes, and the `open_key` cache-hit guard can never fire; the
correction is that `delete_key` (of any key, including the cached one) and
`change_password` leave `current_box` byte-for-byte unchanged, contrary to
the claim (see the counterexample). -/
theorem C4_cache_invalidation_close_only (st : VState) (key : List Nat)
    (old_pw new_pw salt2 nonce2 : List Nat)
    (hopen : st.info.is_open = true) :
    (close_vault st).2.info.current_box = emptyVaultBox
    ∧ (place_open_value (close_vault st).2).1 = VE_VCLOSE
    ∧ (place_open_value (close_vault st).2).2.2.1 = []
    ∧ (∀ k, ¬ ((close_vault st).2.info.current_box.key ≠ []
        ∧ (close_vault st).2.info.current_box.key = k))
    ∧ (delete_key st key).2.info.current_box = st.info.current_box
    ∧ (change_password st old_pw new_pw salt2 nonce2).2.info.current_box
        = st.info.current_box := by
  have hc : close_vault st = (VE_SUCCESS,
      ⟨⟨false, List.replicate MASTER_KEY_SIZE 0, List.replicate MASTER_KEY_SIZE 0,
        emptyVaultBox, []⟩, st.file⟩) := by
    unfold close_vault
    rw [if_neg (fun h => h hopen)]
  refine ⟨?_, ?_, ?_, ?_, ?_, ?_⟩
  · rw [hc]
  · rw [hc]
    rfl
  · rw [hc]
    rfl
  · intro k hk
    rw [hc] at hk
    exact hk.1 rfl
  · unfold delete_key
    repeat' split
    all_goals rfl
  · unfold change_password
    repeat' split
    all_goals rfl

/-- Witness for the cache-invalidation facts at the S1 scenario state with
"k0" cached. -/
theorem C4_cache_witness :
    scStOpen.info.is_open = true
    ∧ ((close_vault scStOpen).2.info.current_box = emptyVaultBox
      ∧ (place_open_value (close_vault scStOpen).2).1 = VE_VCLOSE
      ∧ (place_open_value (close_vault scStOpen).2).2.2.1 = []
      ∧ (∀ k, ¬ ((close_vault scStOpen).2.info.current_box.key ≠ []
          ∧ (close_vault scStOpen).2.info.current_box.key = k))
      ∧ (delete_key scStOpen (scKey 0)).2.info.current_box
          = scStOpen.info.current_box
      ∧ (change_password scStOpen scPw [113, 113] (List.replicate 16 5)
          (List.replicate 24 6)).2.info.current_box = scStOpen.info.current_box) :=
  ⟨by set_option maxRecDepth 4000 in decide,
   C4_cache_invalidation_close_only scStOpen (scKey 0) scPw [113, 113]
     (List.replicate 16 5) (List.replicate 24 6)
     (by set_option maxRecDepth 4000 in decide)⟩

/-- C5 (amended): with the header's real size the formula is
`104 + 4 + 16*slot_count + Σ record sizes + 32` (not 64-based, see the
counterexample).  It holds after `create_vault`, after each `add` of the
scenario, and is preserved by `change_password` and `set_last_server_time`;
`delete_key`, however, breaks any such formula: it appends a fresh 32-byte
hash instead of overwriting the old one, growing the file by `HASH_SIZE`
while the slot sums are unchanged. -/
theorem C5_amended_size_formula :
    toksLen scSt0.file = amended_file_size scSt0.file
    ∧ toksLen scSt1.file = amended_file_size scSt1.file
    ∧ toksLen scSt4.file = amended_file_size scSt4.file
    ∧ (change_password scSt1 scPw [113, 113] (List.replicate 16 5)
        (List.replicate 24 6)).1 = VE_SUCCESS
    ∧ toksLen (change_password scSt1 scPw [113, 113] (List.replicate 16 5)
        (List.replicate 24 6)).2.file
      = amended_file_size (change_password scSt1 scPw [113, 113] (List.replicate 16 5)
        (List.replicate 24 6)).2.file
    ∧ (set_last_server_time scSt1 4242).1 = VE_SUCCESS
    ∧ toksLen (set_last_server_time scSt1 4242).2.file
      = amended_file_size (set_last_server_time scSt1 4242).2.file
    ∧ (delete_key scStOpen (scKey 0)).1 = VE_SUCCESS
    ∧ toksLen scStDel.file = amended_file_size scStDel.file + 32 := by
  set_option maxRecDepth 10000 in decide

/-- C9 (amended): on an open vault `get_header` returns `SUCCESS` and copies
exactly the first `HEADER_SIZE - 4 = 104` bytes — the header-for-server
region `[0, 104)` up to but not including `slot_count` — which is 104
bytes, not 60. -/
theorem C9_get_header_104 (info : VaultInfo) (v : FileView) (hwf : v.WF)
    (hopen : info.is_open = true) :
    get_header ⟨info, v.toks⟩ = (VE_SUCCESS, v.hdrToks)
    ∧ toksLen (get_header ⟨info, v.toks⟩).2 = 104 := by
  have h : get_header ⟨info, v.toks⟩ = (VE_SUCCESS, v.hdrToks) := by
    unfold get_header
    dsimp only
    rw [if_neg (fun h => h hopen), show HEADER_SIZE - 4 = (104 : Nat) from rfl,
      view_take_hdr v hwf]
  refine ⟨h, ?_⟩
  rw [h]
  exact v.hdrToks_len hwf

/-- Witness for the amended `get_header` behaviour on a concrete open
vault. -/
theorem C9_get_header_witness :
    c3info.is_open = true
    ∧ (get_header ⟨c3info, c3v.toks⟩ = (VE_SUCCESS, c3v.hdrToks)
      ∧ toksLen (get_header ⟨c3info, c3v.toks⟩).2 = 104) :=
  ⟨rfl, C9_get_header_104 c3info c3v (by decide) rfl⟩

/-- C6: after every successful mutation the trailing 32 bytes of the file
are the keyed hash, under the session's master key, of everything before
them.  `add_key`, `delete_key`, `update_key`, `add_encrypted_value` and the
compaction pass always end a successful run by appending a freshly
recomputed `FMac` over the content, for any state; `set_last_server_time`
and `change_password` overwrite the old trailing hash in place, shown for
any well-formed open vault view. -/
theorem C6_file_mac_closure (info : VaultInfo) (v : FileView) (hwf : v.WF)
    (hopen : info.is_open = true) (ts : Nat)
    (old_pw new_pw salt2 nonce2 : List Nat)
    (hol : old_pw.length ≤ MAX_PASS_SIZE) (hnewl : new_pw.length ≤ MAX_PASS_SIZE)
    (hmbox : v.mbox = Box.seal (pwhash old_pw v.salt) v.mnonce info.decrypted_master)
    (hs2 : salt2.length = SALT_SIZE) (hn2 : nonce2.length = NONCE_SIZE)
    (hml : info.decrypted_master.length = MASTER_KEY_SIZE) :
    (∀ st ty key value m_time len n1 n2 st',
        add_key st ty key value m_time len n1 n2 = (VE_SUCCESS, st') →
        macClosed st.info.decrypted_master st'.file)
    ∧ (∀ st key st', delete_key st key = (VE_SUCCESS, st') →
        macClosed st.info.decrypted_master st'.file)
    ∧ (∀ st ty key value m_time len n1 n2 st',
        update_key st ty key value m_time len n1 n2 = (VE_SUCCESS, st') →
        macClosed st.info.decrypted_master st'.file)
    ∧ (∀ st key entry len ty m_time st',
        add_encrypted_value st key entry len ty m_time = (VE_SUCCESS, st') →
        macClosed st.info.decrypted_master st'.file)
    ∧ (∀ st st', internal_condense_file st = (VE_SUCCESS, st') →
        macClosed st.info.decrypted_master st'.file)
    ∧ ((set_last_server_time ⟨info, v.toks⟩ ts).1 = VE_SUCCESS
        ∧ macClosed info.decrypted_master
            (set_last_server_time ⟨info, v.toks⟩ ts).2.file)
    ∧ ((change_password ⟨info, v.toks⟩ old_pw new_pw salt2 nonce2).1 = VE_SUCCESS
        ∧ macClosed info.decrypted_master
            (change_password ⟨info, v.toks⟩ old_pw new_pw salt2 nonce2).2.file) :=
  ⟨fun st ty key value m_time len n1 n2 st' h =>
      macClosed_add_key st ty key value m_time len n1 n2 st' h,
   fun st key st' h => macClosed_delete_key st key st' h,
   fun st ty key value m_time len n1 n2 st' h =>
      macClosed_update_key st ty key value m_time len n1 n2 st' h,
   fun st key entry len ty m_time st' h =>
      macClosed_add_encrypted_value st key entry len ty m_time st' h,
   fun st st' h => macClosed_condense st st' h,
   macClosed_set_last_server_time info v hwf hopen ts,
   macClosed_change_password info v hwf hopen old_pw new_pw salt2 nonce2 hol hnewl
     hmbox hs2 hn2 hml⟩

/-- Witness for the file-MAC closure at a concrete honest open vault. -/
theorem C6_mac_closure_witness :
    c3info.is_open = true
    ∧ ((∀ st ty key value m_time len n1 n2 st',
          add_key st ty key value m_time len n1 n2 = (VE_SUCCESS, st') →
          macClosed st.info.decrypted_master st'.file)
      ∧ (∀ st key st', delete_key st key = (VE_SUCCESS, st') →
          macClosed st.info.decrypted_master st'.file)
      ∧ (∀ st ty key value m_time len n1 n2 st',
          update_key st ty key value m_time len n1 n2 = (VE_SUCCESS, st') →
          macClosed st.info.decrypted_master st'.file)
      ∧ (∀ st key entry len ty m_time st',
          add_encrypted_value st key entry len ty m_time = (VE_SUCCESS, st') →
          macClosed st.info.decrypted_master st'.file)
      ∧ (∀ st st', internal_condense_file st = (VE_SUCCESS, st') →
          macClosed st.info.decrypted_master st'.file)
      ∧ ((set_last_server_time ⟨c3info, c2v.toks⟩ 4242).1 = VE_SUCCESS
          ∧ macClosed c3info.decrypted_master
              (set_last_server_time ⟨c3info, c2v.toks⟩ 4242).2.file)
      ∧ ((change_password ⟨c3info, c2v.toks⟩ scPw [113, 113] (List.replicate 16 5)
            (List.replicate 24 6)).1 = VE_SUCCESS
          ∧ macClosed c3info.decrypted_master
              (change_password ⟨c3info, c2v.toks⟩ scPw [113, 113] (List.replicate 16 5)
                (List.replicate 24 6)).2.file)) :=
  ⟨rfl, C6_file_mac_closure c3info c2v (by decide) rfl 4242 scPw [113, 113]
     (List.replicate 16 5) (List.replicate 24 6) (by decide) (by decide) rfl
     (by decide) (by decide) (by decide)⟩

/-- C7: for every open well-formed vault view in which the present key's
map entry points at an honest `ACTIVE` slot and record, `delete_key` marks
the slot `DELETED = 1` and zeroes exactly the `val_len + 16`
ciphertext+tag bytes at `file_offset + 9 + key_len`, leaving every other
byte before the fresh trailing hash unchanged (the byte-exact output file
keeps the record's mtime, type, key, nonce and record-mac bytes and the
rest of the heap verbatim); and an allocation always takes the first slot
whose state is `UNUSED = 0`, never a `DELETED` one.  Both halves are
general; the S2 walk instance additionally shows the re-add of "k0"
landing in slot 1, not the deleted slot 0. -/
theorem C7_delete_zeroing_and_slot_reuse (info : VaultInfo) (v : FileView)
    (hwf : v.WF) (hopen : info.is_open = true)
    (key value nonce : List Nat) (e : KeyInfoEntry)
    (i mt ty2 len fl : Nat) (hA hB : List Tok)
    (hkl : key.length ≤ BOX_KEY_SIZE - 1)
    (hmap : get_info info.key_info key = some e)
    (hloc : e.inode_loc = HEADER_SIZE + i * LOC_SIZE)
    (hi : i < v.locLen)
    (hslotB : v.slotB i = slotBytes4 STATE_ACTIVE fl key.length len)
    (hfl : fl = 108 + 16 * v.locLen + toksLen hA)
    (hheap : v.heap = hA
      ++ recordToks info.decrypted_master ty2 key value mt len nonce ++ hB)
    (hvlen : value.length = len) (hnl : nonce.length = NONCE_SIZE)
    (hfl32 : 108 + 16 * v.locLen + toksLen v.heap < 4294967296)
    (hlen32 : len < 4294967296) :
    (∀ f L j, firstFree f L = some j →
      slotState f j = some STATE_UNUSED ∧ slotState f j ≠ some STATE_DELETED)
    ∧ (delete_key ⟨info, v.toks⟩ key).1 = VE_SUCCESS
    ∧ (delete_key ⟨info, v.toks⟩ key).2.info
        = { info with key_info := delete_entry info.key_info key }
    ∧ (∃ D : List Tok,
        (delete_key ⟨info, v.toks⟩ key).2.file
          = D ++ [Tok.mac (FMac.mk info.decrypted_master D)]
        ∧ D = v.hdrToks ++ (u32Bytes v.locLen).map Tok.b
            ++ (v.slotBytes.take (LOC_SIZE * i)
                ++ slotBytes4 STATE_DELETED fl key.length len
                ++ v.slotBytes.drop (LOC_SIZE * i + LOC_SIZE)).map Tok.b
            ++ hA ++ (u64Bytes mt).map Tok.b ++ [Tok.b ty2] ++ key.map Tok.b
            ++ (List.replicate (len + MAC_SIZE) 0).map Tok.b ++ nonce.map Tok.b
            ++ [Tok.mac (FMac.mk info.decrypted_master ((u64Bytes mt).map Tok.b
                ++ [Tok.b ty2] ++ key.map Tok.b
                ++ [Tok.box (Box.seal info.decrypted_master nonce (value.take len))]
                ++ nonce.map Tok.b))]
            ++ hB ++ [Tok.mac v.fmac])
    ∧ readSlotAt (delete_key ⟨info, v.toks⟩ key).2.file (HEADER_SIZE + i * LOC_SIZE)
        = some (STATE_DELETED, fl, key.length, len)
    ∧ readBytesAt (delete_key ⟨info, v.toks⟩ key).2.file
        (fl + ENTRY_HEADER_SIZE + key.length) (len + MAC_SIZE)
        = some (List.replicate (len + MAC_SIZE) 0)
    ∧ ((delete_key scStOpen (scKey 0)).1 = VE_SUCCESS
      ∧ slotState scStDel.file 0 = some STATE_DELETED
      ∧ readBytesAt scStDel.file 183 18 = some (List.replicate 18 0)
      ∧ readBytesAt scStDel.file 172 8 = readBytesAt scStOpen.file 172 8
      ∧ readBytesAt scStDel.file 180 1 = readBytesAt scStOpen.file 180 1
      ∧ readBytesAt scStDel.file 181 2 = some (scKey 0)
      ∧ readBytesAt scStDel.file 201 24 = readBytesAt scStOpen.file 201 24
      ∧ readMacAt scStDel.file 225 = readMacAt scStOpen.file 225
      ∧ firstFree scStDel.file 4 = some 1
      ∧ scReAdd.1 = VE_SUCCESS
      ∧ get_info scReAdd.2.info.key_info (scKey 0)
          = some ⟨HEADER_SIZE + 1 * LOC_SIZE, 3000, 1⟩) := by
  obtain ⟨g1, g2, g3, g4, g5⟩ := delete_key_view info v hwf hopen key value nonce
    e i mt ty2 len fl hA hB hkl hmap hloc hi hslotB hfl hheap hvlen hnl hfl32 hlen32
  refine ⟨?_, g1, g2, g3, g4, g5, ?_⟩
  · intro f L j h
    obtain ⟨-, h0, -⟩ := firstFree_spec f L j h
    refine ⟨h0, ?_⟩
    rw [h0]
    simp [STATE_DELETED]
  · set_option maxRecDepth 10000 in decide

/-- Witness for the general delete postconditions at a concrete one-key
vault: deleting the present key "k0" succeeds, the slot reads back
`DELETED` with its original offset and lengths, and the 18 ciphertext+tag
bytes are zeroed. -/
theorem C7_delete_witness :
    get_info c7info.key_info (scKey 0) = some ⟨108, 1000, 1⟩
    ∧ (delete_key ⟨c7info, c7v.toks⟩ (scKey 0)).1 = VE_SUCCESS
    ∧ readSlotAt (delete_key ⟨c7info, c7v.toks⟩ (scKey 0)).2.file 108
        = some (STATE_DELETED, 172, 2, 2)
    ∧ readBytesAt (delete_key ⟨c7info, c7v.toks⟩ (scKey 0)).2.file 183 18
        = some (List.replicate 18 0) := by
  have hC := C7_delete_zeroing_and_slot_reuse c7info c7v (by decide) rfl
    (scKey 0) (scVal 0) (scN 0) ⟨108, 1000, 1⟩ 0 1000 1 2 172 [] []
    (by decide) (by decide) (by decide) (by decide)
    (by set_option maxRecDepth 4000 in decide) (by decide)
    (by set_option maxRecDepth 4000 in decide) (by decide) (by decide)
    (by set_option maxRecDepth 4000 in decide) (by decide)
  exact ⟨by decide, hC.2.1, hC.2.2.2.2.1, hC.2.2.2.2.2.1⟩

end Vault
